import Mathlib

/-!
Verification of the core of the Options-Pricer-Library repository.

The Python sources under `core/` are shallowly embedded here:
floating point arithmetic is modelled by real arithmetic (`ℝ`),
`raise ValueError(...)` sites are modelled by `Except PricingError`,
and NumPy arrays / Python lists by `List ℝ`.  Every definition is a
direct transcription of the corresponding Python function.
-/

namespace OptionsPricer

/-- Error taxonomy of the library.  Every `raise ValueError` in the source
is classified following the specification's taxonomy: input-validation
failures (`invalidInput`), the bisection bracket check (`bracketing`) and
bisection iteration exhaustion (`convergence`). -/
inductive PricingError where
  | invalidInput
  | bracketing
  | convergence
deriving DecidableEq

/-- Python's `str.lower()`, used for the case-insensitive string dispatch
throughout the library (applied to ASCII keywords such as "call"/"put"). -/
def strLower (s : String) : String := String.mk (s.data.map Char.toLower)

/-- The error function primitive `math.erf` used by `core/utils.py`,
given by its mathematical definition. -/
noncomputable def erf (x : ℝ) : ℝ :=
  (2 / Real.sqrt Real.pi) * ∫ t in (0:ℝ)..x, Real.exp (-t ^ 2)

/-- `normal_pdf` from `core/utils.py`. -/
noncomputable def normalPdf (x : ℝ) : ℝ :=
  (1 / Real.sqrt (2 * Real.pi)) * Real.exp (-0.5 * x * x)

/-- `normal_cdf` from `core/utils.py`: `0.5 * (1.0 + erf (x / sqrt 2))`. -/
noncomputable def normalCdf (x : ℝ) : ℝ :=
  0.5 * (1 + erf (x / Real.sqrt 2))

/-- The `d1` term from `core/utils.py` (the raw formula; the guards
`T ≤ 0` / `sigma ≤ 0` of `utils.d1` are re-raised by every caller in the
library before this formula is reached, so all call sites satisfy them). -/
noncomputable def d1 (S K T r σ : ℝ) : ℝ :=
  (Real.log (S / K) + (r + 0.5 * σ * σ) * T) / (σ * Real.sqrt T)

/-- The `d2` term from `core/utils.py`: `d1 - sigma * sqrt T`. -/
noncomputable def d2 (S K T r σ : ℝ) : ℝ :=
  d1 S K T r σ - σ * Real.sqrt T

/-- The call branch value of `black_scholes_price`:
`S * Φ(d1) - K * exp(-r T) * Φ(d2)`. -/
noncomputable def bsCallVal (S K T r σ : ℝ) : ℝ :=
  S * normalCdf (d1 S K T r σ) - K * Real.exp (-(r * T)) * normalCdf (d2 S K T r σ)

/-- The put branch value of `black_scholes_price`:
`K * exp(-r T) * Φ(-d2) - S * Φ(-d1)`. -/
noncomputable def bsPutVal (S K T r σ : ℝ) : ℝ :=
  K * Real.exp (-(r * T)) * normalCdf (-(d2 S K T r σ)) - S * normalCdf (-(d1 S K T r σ))

/-- The value returned by `black_scholes_price` once validation has
passed, selected by the (lower-cased) option type; `0` is junk for an
unrecognised type, where the code raises instead. -/
noncomputable def bsVal (S K T r σ : ℝ) (optionType : String) : ℝ :=
  if strLower optionType = "call" then bsCallVal S K T r σ
  else if strLower optionType = "put" then bsPutVal S K T r σ
  else 0

/-- `black_scholes_price` from `core/black_scholes.py`, with its three
validation guards (in source order) and the case-insensitive option-type
dispatch; the final `else` branch raises. -/
noncomputable def blackScholesPrice (S K T r σ : ℝ) (optionType : String) :
    Except PricingError ℝ :=
  if S ≤ 0 ∨ K ≤ 0 then .error .invalidInput
  else if T ≤ 0 then .error .invalidInput
  else if σ ≤ 0 then .error .invalidInput
  else if strLower optionType = "call" then .ok (bsCallVal S K T r σ)
  else if strLower optionType = "put" then .ok (bsPutVal S K T r σ)
  else .error .invalidInput

/-- CRR time step `dt = T / steps` from `core/binomial_tree.py`.
(For `steps = 0` Python would raise ZeroDivisionError; all theorems below
assume `steps ≥ 1`, matching the spec's edge-case requirement.) -/
noncomputable def crrDt (T : ℝ) (steps : ℕ) : ℝ := T / steps

/-- CRR up factor `u = exp (sigma * sqrt dt)`.  `Real.sqrt` models
`math.sqrt`; the two agree whenever `dt ≥ 0`, which holds at every input
considered in the theorems below. -/
noncomputable def crrU (σ T : ℝ) (steps : ℕ) : ℝ :=
  Real.exp (σ * Real.sqrt (crrDt T steps))

/-- CRR down factor `d = 1 / u`. -/
noncomputable def crrD (σ T : ℝ) (steps : ℕ) : ℝ := 1 / crrU σ T steps

/-- CRR risk-neutral probability `p = (exp (r dt) - d) / (u - d)`. -/
noncomputable def crrP (r σ T : ℝ) (steps : ℕ) : ℝ :=
  (Real.exp (r * crrDt T steps) - crrD σ T steps) / (crrU σ T steps - crrD σ T steps)

/-- CRR per-step discount factor `disc = exp (-r dt)`. -/
noncomputable def crrDisc (r T : ℝ) (steps : ℕ) : ℝ :=
  Real.exp (-(r * crrDt T steps))

/-- Terminal stock prices `[S * u**j * d**(steps-j) for j in range(steps+1)]`. -/
noncomputable def crrTerminalPrices (S σ T : ℝ) (steps : ℕ) : List ℝ :=
  (List.range (steps + 1)).map fun j =>
    S * crrU σ T steps ^ j * crrD σ T steps ^ (steps - j)

/-- Terminal option payoffs of `binomial_tree_price`: the call payoff when
the lower-cased option type is "call", otherwise the put payoff (any
unrecognised type silently falls through to the put branch, as in the
source). -/
noncomputable def crrPayoffs (K : ℝ) (call : Bool) (prices : List ℝ) : List ℝ :=
  if call then prices.map fun price => max (price - K) 0
  else prices.map fun price => max (K - price) 0

/-- One backward-induction level `i` of `binomial_tree_price`.  The Python
loop mutates `values[j]` and `prices[j]` in place for ascending `j ≤ i`, but
iteration `j` only reads `values[j]`, `values[j+1]` and `prices[j]`, none of
which has been written earlier in the same pass, so the level is a pure map
over the old arrays.  Out-of-range reads use the (never reached) default 0. -/
noncomputable def crrLevel (u p disc K : ℝ) (call amer : Bool) (i : ℕ)
    (pv : List ℝ × List ℝ) : List ℝ × List ℝ :=
  let prices := pv.1
  let values := pv.2
  let newValues := (List.range values.length).map fun j =>
    if j ≤ i then
      let continuation := disc * (p * values.getD (j + 1) 0 + (1 - p) * values.getD j 0)
      if amer then
        let intrinsic :=
          if call then max (prices.getD j 0 / u - K) 0
          else max (K - prices.getD j 0 / u) 0
        max continuation intrinsic
      else continuation
    else values.getD j 0
  let newPrices := (List.range prices.length).map fun j =>
    if j ≤ i then prices.getD j 0 / u else prices.getD j 0
  (newPrices, newValues)

/-- The backward induction `for i in range(steps-1, -1, -1)`: levels
`n-1, n-2, ..., 0` applied in that order. -/
noncomputable def crrLoop (u p disc K : ℝ) (call amer : Bool) :
    ℕ → List ℝ × List ℝ → List ℝ × List ℝ
  | 0, pv => pv
  | n + 1, pv => crrLoop u p disc K call amer n (crrLevel u p disc K call amer n pv)

/-- `binomial_tree_price` from `core/binomial_tree.py`.  The source performs
no input validation (no `raise` statement): every input reaching this
function produces a number, the final `values[0]`. -/
noncomputable def binomialTreePrice (S K T r σ : ℝ) (optionType : String)
    (steps : ℕ) (exercise : String) : ℝ :=
  let u := crrU σ T steps
  let p := crrP r σ T steps
  let disc := crrDisc r T steps
  let prices := crrTerminalPrices S σ T steps
  let call := strLower optionType == "call"
  let values := crrPayoffs K call prices
  let amer := strLower exercise == "american"
  ((crrLoop u p disc K call amer steps (prices, values)).2).getD 0 0

/-- State of the global NumPy random generator, modelled as a stream of
standard-normal draws together with the position of the next unconsumed
draw.  This is the shared mutable process state that `np.random.randn`
reads and advances. -/
structure RngState where
  stream : ℕ → ℝ
  pos : ℕ

/-- `np.random.randn n` acting on the global generator state: returns the
next `n` draws and the advanced state. -/
def randn (n : ℕ) (g : RngState) : List ℝ × RngState :=
  ((List.range n).map fun j => g.stream (g.pos + j), ⟨g.stream, g.pos + n⟩)

/-- `monte_carlo_european` from `core/monte_carlo.py`.  The call
`np.random.randn(n_paths)` on the *global* generator is made explicit: the
function receives the generator state and returns the advanced state
alongside the price.  The source performs no input validation. -/
noncomputable def monteCarloEuropean (S0 K T r σ : ℝ) (optionType : String)
    (nPaths : ℕ) (antithetic : Bool) (g : RngState) : ℝ × RngState :=
  let zg := randn nPaths g
  let Z := if antithetic then zg.1 ++ zg.1.map (fun z => -z) else zg.1
  let ST := Z.map fun z =>
    S0 * Real.exp ((r - 0.5 * σ ^ 2) * T + σ * Real.sqrt T * z)
  let payoff :=
    if strLower optionType = "call" then ST.map fun s => max (s - K) 0
    else ST.map fun s => max (K - s) 0
  (Real.exp (-(r * T)) * (payoff.sum / payoff.length), zg.2)

/-- The closure `f(sigma_val) = black_scholes_price(S,K,T,r,sigma_val,option_type)
- target_price` of `implied_volatility`; a pricing exception propagates. -/
noncomputable def ivF (targetPrice S K T r : ℝ) (ot : String) (σv : ℝ) :
    Except PricingError ℝ :=
  (blackScholesPrice S K T r σv ot).map fun price => price - targetPrice

/-- The bisection loop of `implied_volatility`: the mutable loop state is
`(a, b, f_lower)` (the stored `f_upper` is never read by the sign test),
and the fuel is the number of remaining iterations of
`for _ in range(max_iter)`; running out of fuel is the post-loop
ConvergenceError raise. -/
noncomputable def ivBisect (targetPrice S K T r : ℝ) (ot : String) (tol : ℝ) :
    ℕ → ℝ → ℝ → ℝ → Except PricingError ℝ
  | 0, _, _, _ => .error .convergence
  | n + 1, a, b, fl =>
    match ivF targetPrice S K T r ot (0.5 * (a + b)) with
    | .error e => .error e
    | .ok fmid =>
      if |fmid| < tol then .ok (0.5 * (a + b))
      else if fl * fmid < 0 then
        ivBisect targetPrice S K T r ot tol n a (0.5 * (a + b)) fl
      else
        ivBisect targetPrice S K T r ot tol n (0.5 * (a + b)) b fmid

/-- `implied_volatility` from `core/black_scholes.py`: the `target_price`
guard, the bracket check `f_lower * f_upper > 0` and the bisection loop. -/
noncomputable def impliedVolatility (targetPrice S K T r : ℝ)
    (optionType : String) (tol : ℝ) (maxIter : ℕ) (lower upper : ℝ) :
    Except PricingError ℝ :=
  if targetPrice ≤ 0 then .error .invalidInput
  else
    match ivF targetPrice S K T r (strLower optionType) lower with
    | .error e => .error e
    | .ok fl =>
      match ivF targetPrice S K T r (strLower optionType) upper with
      | .error e => .error e
      | .ok fu =>
        if fl * fu > 0 then .error .bracketing
        else ivBisect targetPrice S K T r (strLower optionType) tol maxIter lower upper fl

/-- Sorted-unique insertion, modelling the construction of the axes
`np.sort(df["maturity"].unique())` / `np.sort(df["strike"].unique())` of
`VolSurface.__init__`: the result is the strictly sorted list of the
distinct values. -/
noncomputable def insertUnique (x : ℝ) : List ℝ → List ℝ
  | [] => [x]
  | y :: ys =>
    if x < y then x :: y :: ys
    else if x = y then y :: ys
    else y :: insertUnique x ys

/-- The strictly sorted list of distinct values of `xs`. -/
noncomputable def sortedUnique (xs : List ℝ) : List ℝ := xs.foldr insertUnique []

/-- The sorted unique maturity axis `self.maturities`. -/
noncomputable def matAxis (rows : List (ℝ × ℝ × ℝ)) : List ℝ :=
  sortedUnique (rows.map fun row => row.1)

/-- The sorted unique strike axis `self.strikes`. -/
noncomputable def strikeAxis (rows : List (ℝ × ℝ × ℝ)) : List ℝ :=
  sortedUnique (rows.map fun row => row.2.1)

/-- The pivot-table cell `self.iv_grid[maturity t, strike k]`:
`df.pivot_table` aggregates duplicate (maturity, strike) rows by their
mean and leaves NaN at a missing (maturity, strike) combination.  NaN has
no real value, so a gap cell is `none`. -/
noncomputable def gridVal (rows : List (ℝ × ℝ × ℝ)) (t k : ℝ) : Option ℝ :=
  let cell := rows.filter fun row => decide (row.1 = t ∧ row.2.1 = k)
  if cell.isEmpty then none
  else some ((cell.map fun row => row.2.2).sum / cell.length)

/-- The cell index used by scipy's `RegularGridInterpolator`:
`searchsorted(grid, x) - 1` clipped into `[0, len - 2]` (natural
subtraction performs the lower clip). -/
noncomputable def interpIdx (xs : List ℝ) (x : ℝ) : ℕ :=
  min (xs.countP (fun y => decide (y < x)) - 1) (xs.length - 2)

/-- The linear weight of the selected cell; outside the axis range it
leaves `[0, 1]`, which is exactly scipy's `fill_value=None` linear
extrapolation. -/
noncomputable def interpLam (xs : List ℝ) (x : ℝ) : ℝ :=
  (x - xs.getD (interpIdx xs x) 0) /
    (xs.getD (interpIdx xs x + 1) 0 - xs.getD (interpIdx xs x) 0)

/-- 2-D multilinear interpolation over the (maturity, strike) grid, as
`RegularGridInterpolator((maturities, strikes), iv_grid, bounds_error=False,
fill_value=None)` computes it.  The weighted sum runs over all four
corners of the selected cell, so a NaN corner (a gap) poisons the result
even under a zero weight (`NaN * 0.0` is NaN in the source's float
arithmetic): the result is a real number only when all four corners are
present. -/
noncomputable def interp2 (ms ks : List ℝ) (g : ℝ → ℝ → Option ℝ) (t k : ℝ) :
    Option ℝ :=
  let i := interpIdx ms t
  let j := interpIdx ks k
  let lt := interpLam ms t
  let lk := interpLam ks k
  match g (ms.getD i 0) (ks.getD j 0), g (ms.getD i 0) (ks.getD (j + 1) 0),
      g (ms.getD (i + 1) 0) (ks.getD j 0),
      g (ms.getD (i + 1) 0) (ks.getD (j + 1) 0) with
  | some g00, some g01, some g10, some g11 =>
    some ((1 - lt) * ((1 - lk) * g00 + lk * g01)
      + lt * ((1 - lk) * g10 + lk * g11))
  | _, _, _, _ => none

/-- `VolSurface.iv(K, T)`: interpolate at the point `[[T, K]]`; `none` is
the NaN the source returns when the selected cell touches a gap. -/
noncomputable def volSurfaceIv (rows : List (ℝ × ℝ × ℝ)) (K T : ℝ) : Option ℝ :=
  interp2 (matAxis rows) (strikeAxis rows) (gridVal rows) T K

/-- `VolSurface.shock_parallel(bump)`: a copy of the row table with every
implied vol shifted by `bump` (`bumped_df["iv"] += bump` on the copy). -/
def shockParallel (rows : List (ℝ × ℝ × ℝ)) (bump : ℝ) : List (ℝ × ℝ × ℝ) :=
  rows.map fun row => (row.1, row.2.1, row.2.2 + bump)

/-- A store of surface row tables addressed by handles, making the heap
effects of `shock_parallel` explicit: `bumped_df = self.df.copy()` followed
by `VolSurface(bumped_df)` allocates a fresh table at a fresh handle. -/
structure SurfaceStore where
  tables : ℕ → List (ℝ × ℝ × ℝ)
  next : ℕ

/-- `shock_parallel` as a store operation: copy the receiver's rows, bump
the iv column of the copy, and store the result at a fresh handle,
returning the new handle.  The receiver's table is never written. -/
def shockParallelOp (s : SurfaceStore) (target : ℕ) (bump : ℝ) :
    SurfaceStore × ℕ :=
  (⟨fun i => if i = s.next then shockParallel (s.tables target) bump
     else s.tables i, s.next + 1⟩, s.next)

/-- A concrete 2×2 surface: maturities {1, 2}, strikes {100, 110}, with
iv 0.2 on the 100-strike column and 0.3 on the 110-strike column. -/
noncomputable def exRows : List (ℝ × ℝ × ℝ) :=
  [(1, 100, 1/5), (1, 110, 3/10), (2, 100, 1/5), (2, 110, 3/10)]

/-- A gapped surface: the (maturity 2, strike 110) combination is missing,
so `pivot_table` leaves a NaN cell there. -/
noncomputable def gapRows : List (ℝ × ℝ × ℝ) :=
  [(1, 100, 1/5), (1, 110, 3/10), (2, 100, 1/5)]

theorem erf_neg (x : ℝ) : erf (-x) = -erf x := by
  unfold erf
  have h1 : (∫ t in (0:ℝ)..(-x), Real.exp (-t ^ 2))
      = ∫ t in (0:ℝ)..(-x), Real.exp (-(-t) ^ 2) := by
    apply intervalIntegral.integral_congr
    intro t ht
    simp [neg_sq]
  have h2 : (∫ t in (0:ℝ)..(-x), Real.exp (-(-t) ^ 2))
      = ∫ t in x..(0:ℝ), Real.exp (-t ^ 2) := by
    have := intervalIntegral.integral_comp_neg (a := 0) (b := -x)
      (f := fun t => Real.exp (-t ^ 2))
    simpa using this
  rw [h1, h2, intervalIntegral.integral_symm]
  ring

theorem expNegSq_intervalIntegrable (a b : ℝ) :
    IntervalIntegrable (fun t => Real.exp (-t ^ 2)) MeasureTheory.volume a b :=
  (Real.continuous_exp.comp ((continuous_pow 2).neg)).intervalIntegrable a b

theorem erf_lt_erf {x y : ℝ} (h : x < y) : erf x < erf y := by
  unfold erf
  have key : 0 < ∫ t in x..y, Real.exp (-t ^ 2) :=
    intervalIntegral.intervalIntegral_pos_of_pos
      (expNegSq_intervalIntegrable x y) (fun t => Real.exp_pos _) h
  have hsum : (∫ t in (0:ℝ)..x, Real.exp (-t ^ 2)) + ∫ t in x..y, Real.exp (-t ^ 2)
      = ∫ t in (0:ℝ)..y, Real.exp (-t ^ 2) :=
    intervalIntegral.integral_add_adjacent_intervals
      (expNegSq_intervalIntegrable 0 x) (expNegSq_intervalIntegrable x y)
  have hc : 0 < 2 / Real.sqrt Real.pi := by positivity
  nlinarith [key, hsum, hc]

theorem erf_zero : erf 0 = 0 := by
  unfold erf
  simp

theorem normalCdf_add_neg (x : ℝ) : normalCdf x + normalCdf (-x) = 1 := by
  unfold normalCdf
  have h : (-x) / Real.sqrt 2 = -(x / Real.sqrt 2) := by ring
  rw [h, erf_neg]
  ring

theorem bsCall_sub_bsPut (S K T r σ : ℝ) :
    bsCallVal S K T r σ - bsPutVal S K T r σ = S - K * Real.exp (-(r * T)) := by
  unfold bsCallVal bsPutVal
  have h1 := normalCdf_add_neg (d1 S K T r σ)
  have h2 := normalCdf_add_neg (d2 S K T r σ)
  linear_combination S * h1 - (K * Real.exp (-(r * T))) * h2

theorem strLower_call : strLower "call" = "call" := by decide

theorem strLower_put : strLower "put" = "put" := by decide

theorem blackScholesPrice_call_ok (S K T r σ : ℝ)
    (hS : 0 < S) (hK : 0 < K) (hT : 0 < T) (hσ : 0 < σ) :
    blackScholesPrice S K T r σ "call" = .ok (bsCallVal S K T r σ) := by
  unfold blackScholesPrice
  rw [if_neg (not_or.mpr ⟨hS.not_le, hK.not_le⟩), if_neg hT.not_le,
    if_neg hσ.not_le, if_pos strLower_call]

theorem blackScholesPrice_put_ok (S K T r σ : ℝ)
    (hS : 0 < S) (hK : 0 < K) (hT : 0 < T) (hσ : 0 < σ) :
    blackScholesPrice S K T r σ "put" = .ok (bsPutVal S K T r σ) := by
  unfold blackScholesPrice
  rw [if_neg (not_or.mpr ⟨hS.not_le, hK.not_le⟩), if_neg hT.not_le,
    if_neg hσ.not_le, if_neg (by rw [strLower_put]; decide), if_pos strLower_put]

/-- C5: put–call parity.  For every valid input (`S>0`, `K>0`, `T>0`, any `r`,
`σ>0`) both pricing calls succeed and
`analyticPrice(call) - analyticPrice(put) = S - K·exp(-rT)` holds exactly
over real arithmetic. -/
theorem C5_put_call_parity (S K T r σ : ℝ)
    (hS : 0 < S) (hK : 0 < K) (hT : 0 < T) (hσ : 0 < σ) :
    blackScholesPrice S K T r σ "call" = .ok (bsCallVal S K T r σ) ∧
    blackScholesPrice S K T r σ "put" = .ok (bsPutVal S K T r σ) ∧
    bsCallVal S K T r σ - bsPutVal S K T r σ = S - K * Real.exp (-(r * T)) :=
  ⟨blackScholesPrice_call_ok S K T r σ hS hK hT hσ,
   blackScholesPrice_put_ok S K T r σ hS hK hT hσ,
   bsCall_sub_bsPut S K T r σ⟩

/-- Witness for C5 at the concrete valid input `S=K=100`, `T=1`, `r=0`, `σ=1`. -/
theorem C5_put_call_parity_witness :
    (0:ℝ) < 100 ∧ (0:ℝ) < 1 ∧
    (blackScholesPrice 100 100 1 0 1 "call" = .ok (bsCallVal 100 100 1 0 1) ∧
     blackScholesPrice 100 100 1 0 1 "put" = .ok (bsPutVal 100 100 1 0 1) ∧
     bsCallVal 100 100 1 0 1 - bsPutVal 100 100 1 0 1 = 100 - 100 * Real.exp (-(0 * 1))) :=
  ⟨by norm_num, by norm_num,
   C5_put_call_parity 100 100 1 0 1 (by norm_num) (by norm_num) (by norm_num) (by norm_num)⟩

theorem RngState.ext_pos {g h : RngState} (hs : g.stream = h.stream)
    (hp : g.pos = h.pos) : g = h := by
  cases g; cases h; cases hs; cases hp; rfl

theorem binomial_neg_spot_eval :
    binomialTreePrice (-1) 100 1 0 (1/5) "call" 1 "european" = 0 := by
  have hu : (0:ℝ) < crrU (1/5) 1 1 := Real.exp_pos _
  have hd : (0:ℝ) < crrD (1/5) 1 1 := by unfold crrD; positivity
  have hterm : crrTerminalPrices (-1) (1/5) 1 1 =
      [-crrD (1/5) 1 1, -crrU (1/5) 1 1] := by
    simp [crrTerminalPrices, List.range_succ]
  have hpay : crrPayoffs 100 true (crrTerminalPrices (-1) (1/5) 1 1) = [0, 0] := by
    rw [hterm]
    simp only [crrPayoffs, if_pos, List.map_cons, List.map_nil]
    rw [max_eq_right (by nlinarith), max_eq_right (by nlinarith)]
  unfold binomialTreePrice
  simp only [show (strLower "call" == "call") = true from by decide,
    show (strLower "european" == "american") = false from by decide]
  rw [crrLoop, crrLoop, hpay]
  simp [crrLevel, List.range_succ]

theorem mc_neg_spot_eval :
    (monteCarloEuropean (-1) 100 1 0 1 "call" 1 false ⟨fun n => (n:ℝ), 0⟩).1 = 0 := by
  unfold monteCarloEuropean randn
  simp only [strLower_call, if_pos rfl, if_neg (by simp : ¬ (false = true))]
  simp [List.range_succ]
  nlinarith [Real.exp_pos (-(0.5):ℝ)]

/-- C1 (amended): the analytic pricer `black_scholes_price` raises
InvalidInput for every non-positive spot, strike, maturity or volatility,
but `binomial_tree_price` and `monte_carlo_european` perform no input
validation at all: at the non-positive spot `S = -1` each runs to
completion and returns the computed price `0` instead of raising. -/
theorem C1_only_analytic_validates :
    (∀ S K T r σ : ℝ, ∀ optionType : String,
      S ≤ 0 ∨ K ≤ 0 ∨ T ≤ 0 ∨ σ ≤ 0 →
      blackScholesPrice S K T r σ optionType = .error .invalidInput) ∧
    binomialTreePrice (-1) 100 1 0 (1/5) "call" 1 "european" = 0 ∧
    (monteCarloEuropean (-1) 100 1 0 1 "call" 1 false ⟨fun n => (n:ℝ), 0⟩).1 = 0 := by
  refine ⟨?_, binomial_neg_spot_eval, mc_neg_spot_eval⟩
  intro S K T r σ optionType h
  unfold blackScholesPrice
  split_ifs <;> first | rfl | tauto

/-- C1 counterexample: at the non-positive spot `S = -1` (with all other
inputs valid) the lattice pricer raises nothing: it runs to completion and
returns the price `0`, contradicting the claim that every pricer raises
InvalidInput at the boundary of the call for non-positive spot. -/
theorem C1_counterexample :
    binomialTreePrice (-1) 100 1 0 (1/5) "call" 1 "european" = 0 :=
  binomial_neg_spot_eval

/-- Witness for C1 at a concrete non-positive spot. -/
theorem C1_witness :
    blackScholesPrice (-1) 100 1 0 1 "call" = .error .invalidInput :=
  C1_only_analytic_validates.1 (-1) 100 1 0 1 "call" (Or.inl (by norm_num))

/-- C3 (amended): `monte_carlo_european` is not a pure function of its
explicit inputs: it reads the shared global generator.  Its result is a
deterministic function of the explicit inputs together with the `nPaths`
draws it consumes, and each call advances the generator position by
exactly `nPaths` (the shared-state write). -/
theorem C3_mc_state_dependence (S0 K T r σ : ℝ) (ty : String) (nPaths : ℕ)
    (anti : Bool) (g g2 : RngState)
    (hagree : ∀ j, j < nPaths → g.stream (g.pos + j) = g2.stream (g2.pos + j)) :
    (monteCarloEuropean S0 K T r σ ty nPaths anti g).1 =
      (monteCarloEuropean S0 K T r σ ty nPaths anti g2).1 ∧
    (monteCarloEuropean S0 K T r σ ty nPaths anti g).2 =
      RngState.mk g.stream (g.pos + nPaths) := by
  constructor
  · unfold monteCarloEuropean randn
    have hZ : ((List.range nPaths).map fun j => g.stream (g.pos + j)) =
        (List.range nPaths).map fun j => g2.stream (g2.pos + j) :=
      List.map_congr_left fun j hj => hagree j (List.mem_range.mp hj)
    simp only [hZ]
  · rfl

/-- Witness for C3 at a concrete state and path count. -/
theorem C3_mc_state_dependence_witness :
    (monteCarloEuropean 1 0 1 0 1 "call" 1 true ⟨fun _ => 0, 0⟩).1 =
      (monteCarloEuropean 1 0 1 0 1 "call" 1 true ⟨fun _ => 0, 0⟩).1 ∧
    (monteCarloEuropean 1 0 1 0 1 "call" 1 true ⟨fun _ => 0, 0⟩).2 =
      RngState.mk (fun _ => 0) 1 :=
  C3_mc_state_dependence 1 0 1 0 1 "call" 1 true ⟨fun _ => 0, 0⟩ ⟨fun _ => 0, 0⟩
    (fun _ _ => rfl)

theorem mc_first_eval :
    monteCarloEuropean 1 0 1 0 1 "call" 1 false ⟨fun n => (n:ℝ), 0⟩ =
      (Real.exp (-(1/2)), RngState.mk (fun n => (n:ℝ)) 1) := by
  unfold monteCarloEuropean randn
  simp only [strLower_call, if_pos rfl, if_neg (by simp : ¬ (false = true))]
  refine Prod.ext ?_ rfl
  simp [List.range_succ]
  rw [max_eq_left (Real.exp_pos _).le]
  norm_num

theorem mc_second_eval :
    monteCarloEuropean 1 0 1 0 1 "call" 1 false ⟨fun n => (n:ℝ), 1⟩ =
      (Real.exp (1/2), RngState.mk (fun n => (n:ℝ)) 2) := by
  unfold monteCarloEuropean randn
  simp only [strLower_call, if_pos rfl, if_neg (by simp : ¬ (false = true))]
  refine Prod.ext ?_ rfl
  simp [List.range_succ]
  rw [max_eq_left (Real.exp_pos _).le]
  norm_num

/-- C3 counterexample: two successive `monte_carlo_european` calls with
identical explicit argument values return different results (the global
generator stream here is `n ↦ n` at position 0), and the first call leaves
the shared generator state changed.  This refutes "identical argument
values return identical results and touch no shared mutable process
state". -/
theorem C3_counterexample :
    ((monteCarloEuropean 1 0 1 0 1 "call" 1 false ⟨fun n => (n:ℝ), 0⟩).1 ≠
      (monteCarloEuropean 1 0 1 0 1 "call" 1 false
        ((monteCarloEuropean 1 0 1 0 1 "call" 1 false ⟨fun n => (n:ℝ), 0⟩).2)).1) ∧
    (monteCarloEuropean 1 0 1 0 1 "call" 1 false ⟨fun n => (n:ℝ), 0⟩).2 ≠
      RngState.mk (fun n => (n:ℝ)) 0 := by
  have h1 := mc_first_eval
  constructor
  · rw [h1]
    rw [show (Real.exp (-(1/2)), RngState.mk (fun n => (n:ℝ)) 1).2 =
      RngState.mk (fun n => (n:ℝ)) 1 from rfl, mc_second_eval]
    simp only [ne_eq]
    rw [Real.exp_eq_exp]
    norm_num
  · rw [h1]
    intro h
    have := congrArg RngState.pos h
    simp at this

/-- C10: under the precondition `steps ≥ 1` (with `T > 0`, `σ > 0`) the
lattice algorithm is total: the divisors `steps` (in `T/steps`), `u` (in
`d = 1/u` and every `prices[j]/u` walk-back) and `u - d` (in the
risk-neutral probability) are all nonzero, the terminal arrays have length
`steps + 1`, and every index accessed during backward induction
(`values[j]`, `values[j+1]`, `prices[j]` for `j ≤ i ≤ steps - 1`) is within
those bounds. -/
theorem C10_lattice_totality (S T r σ : ℝ) (steps : ℕ)
    (hsteps : 1 ≤ steps) (hT : 0 < T) (hσ : 0 < σ) :
    ((steps : ℝ) ≠ 0) ∧
    crrU σ T steps ≠ 0 ∧
    crrU σ T steps - crrD σ T steps ≠ 0 ∧
    crrP r σ T steps * (crrU σ T steps - crrD σ T steps)
      = Real.exp (r * crrDt T steps) - crrD σ T steps ∧
    (crrTerminalPrices S σ T steps).length = steps + 1 ∧
    (∀ i j : ℕ, i ≤ steps - 1 → j ≤ i → j < steps + 1 ∧ j + 1 < steps + 1) := by
  have hs0 : (0:ℝ) < (steps : ℝ) := by
    exact_mod_cast Nat.lt_of_lt_of_le Nat.zero_lt_one hsteps
  have hdt : 0 < crrDt T steps := div_pos hT hs0
  have hu1 : 1 < crrU σ T steps := by
    rw [crrU, Real.one_lt_exp_iff]
    exact mul_pos hσ (Real.sqrt_pos.mpr hdt)
  have hd1 : crrD σ T steps < 1 := by
    rw [crrD, div_lt_one (by linarith)]
    exact hu1
  have hne : crrU σ T steps - crrD σ T steps ≠ 0 := by linarith
  refine ⟨ne_of_gt hs0, by linarith, hne, div_mul_cancel₀ _ hne, ?_, ?_⟩
  · simp [crrTerminalPrices]
  · intro i j hi hj
    omega

/-- Witness for C10 at `steps = 1`, `T = 1`, `σ = 1`. -/
theorem C10_lattice_totality_witness :
    (1 ≤ 1 ∧ (0:ℝ) < 1) ∧
    (((1:ℕ) : ℝ) ≠ 0 ∧
     crrU 1 1 1 ≠ 0 ∧
     crrU 1 1 1 - crrD 1 1 1 ≠ 0 ∧
     crrP 0 1 1 1 * (crrU 1 1 1 - crrD 1 1 1)
       = Real.exp (0 * crrDt 1 1) - crrD 1 1 1 ∧
     (crrTerminalPrices 100 1 1 1).length = 1 + 1 ∧
     (∀ i j : ℕ, i ≤ 1 - 1 → j ≤ i → j < 1 + 1 ∧ j + 1 < 1 + 1)) :=
  ⟨⟨le_refl 1, by norm_num⟩,
   C10_lattice_totality 100 1 0 1 1 (le_refl 1) (by norm_num) (by norm_num)⟩

theorem blackScholesPrice_cases (S K T r σ : ℝ) (ot : String) :
    blackScholesPrice S K T r σ ot = .ok (bsVal S K T r σ ot) ∨
    blackScholesPrice S K T r σ ot = .error .invalidInput := by
  unfold blackScholesPrice bsVal
  split_ifs <;> simp

theorem ivF_ok_val {tp S K T r : ℝ} {ot : String} {σv fv : ℝ}
    (h : ivF tp S K T r ot σv = .ok fv) : fv = bsVal S K T r σv ot - tp := by
  rcases blackScholesPrice_cases S K T r σv ot with hc | hc <;>
    rw [ivF, hc] at h
  · simp [Except.map] at h
    exact h.symm
  · simp [Except.map] at h

theorem ivF_error_val {tp S K T r : ℝ} {ot : String} {σv : ℝ}
    {e : PricingError} (h : ivF tp S K T r ot σv = .error e) :
    e = .invalidInput := by
  rcases blackScholesPrice_cases S K T r σv ot with hc | hc <;>
    rw [ivF, hc] at h
  · simp [Except.map] at h
  · simp [Except.map] at h
    exact h.symm

theorem ivBisect_ne_bracketing (tp S K T r : ℝ) (ot : String) (tol : ℝ) :
    ∀ n a b fl, ivBisect tp S K T r ot tol n a b fl ≠ .error .bracketing := by
  intro n
  induction n with
  | zero => intro a b fl; rw [ivBisect]; simp
  | succ n ih =>
    intro a b fl
    rw [ivBisect]
    rcases hf : ivF tp S K T r ot (0.5 * (a + b)) with e | fmid
    · have := ivF_error_val hf
      subst this
      simp
    · dsimp only
      split_ifs
      · simp
      · exact ih a (0.5 * (a + b)) fl
      · exact ih (0.5 * (a + b)) b fmid

theorem ivBisect_ok_tol (tp S K T r : ℝ) (ot : String) (tol : ℝ) :
    ∀ n a b fl v, ivBisect tp S K T r ot tol n a b fl = .ok v →
      |bsVal S K T r v ot - tp| < tol := by
  intro n
  induction n with
  | zero => intro a b fl v h; rw [ivBisect] at h; simp at h
  | succ n ih =>
    intro a b fl v h
    rw [ivBisect] at h
    rcases hf : ivF tp S K T r ot (0.5 * (a + b)) with e | fmid <;> rw [hf] at h
    · simp at h
    · dsimp only at h
      split_ifs at h with h1 h2
      · have hv : v = 0.5 * (a + b) := by simpa using h.symm
        rw [hv, ← ivF_ok_val hf]
        exact h1
      · exact ih a (0.5 * (a + b)) fl v h
      · exact ih (0.5 * (a + b)) b fmid v h

theorem bsVal_call_branch {ot : String} (h : strLower ot = "call")
    (S K T r σ : ℝ) : bsVal S K T r σ ot = bsCallVal S K T r σ := by
  simp [bsVal, h]

theorem bsVal_put_branch {ot : String} (h : strLower ot = "put")
    (S K T r σ : ℝ) : bsVal S K T r σ ot = bsPutVal S K T r σ := by
  simp [bsVal, h]

theorem bsVal_strLower (S K T r v : ℝ) {ot : String}
    (hty : strLower ot = "call" ∨ strLower ot = "put") :
    bsVal S K T r v (strLower ot) = bsVal S K T r v ot := by
  rcases hty with h | h <;> rw [h]
  · rw [bsVal_call_branch strLower_call, bsVal_call_branch h]
  · rw [bsVal_put_branch strLower_put, bsVal_put_branch h]

theorem ivF_valid_ok (tp S K T r σv : ℝ) (ot : String)
    (hS : 0 < S) (hK : 0 < K) (hT : 0 < T) (hσ : 0 < σv)
    (hty : strLower ot = "call" ∨ strLower ot = "put") :
    ivF tp S K T r (strLower ot) σv = .ok (bsVal S K T r σv ot - tp) := by
  rcases hty with h | h <;> rw [h]
  · rw [ivF, blackScholesPrice_call_ok S K T r σv hS hK hT hσ,
      bsVal_call_branch h]
    rfl
  · rw [ivF, blackScholesPrice_put_ok S K T r σv hS hK hT hσ,
      bsVal_put_branch h]
    rfl

theorem ivBisect_classify (tp S K T r : ℝ) (ot : String) (tol : ℝ)
    (hS : 0 < S) (hK : 0 < K) (hT : 0 < T)
    (hty : strLower ot = "call" ∨ strLower ot = "put") :
    ∀ n a b fl, 0 < a → 0 < b →
      (∃ v, ivBisect tp S K T r (strLower ot) tol n a b fl = .ok v ∧
        |bsVal S K T r v ot - tp| < tol) ∨
      ivBisect tp S K T r (strLower ot) tol n a b fl = .error .convergence := by
  intro n
  induction n with
  | zero =>
    intro a b fl _ _
    right
    rw [ivBisect]
  | succ n ih =>
    intro a b fl ha hb
    have hmid : 0 < 0.5 * (a + b) := by linarith
    have hf := ivF_valid_ok tp S K T r (0.5 * (a + b)) ot hS hK hT hmid hty
    rw [ivBisect, hf]
    dsimp only
    split_ifs with h1 h2
    · exact Or.inl ⟨0.5 * (a + b), rfl, h1⟩
    · exact ih a (0.5 * (a + b)) fl ha hmid
    · exact ih (0.5 * (a + b)) b _ hmid hb

/-- C4 (amended): with a positive target and valid pricing inputs,
`implied_volatility` raises BracketingError exactly when
`f(lower) * f(upper) > 0` strictly (a zero endpoint value passes the
check); otherwise the call either returns a midpoint `v` with
`|f(v)| < tol` or raises ConvergenceError after exhausting `maxIter`
iterations. -/
theorem C4_bisection_behaviour (tp S K T r tol : ℝ) (maxIter : ℕ)
    (lower upper : ℝ) (ot : String)
    (htp : 0 < tp) (hS : 0 < S) (hK : 0 < K) (hT : 0 < T)
    (hlow : 0 < lower) (hup : 0 < upper)
    (hty : strLower ot = "call" ∨ strLower ot = "put") :
    (impliedVolatility tp S K T r ot tol maxIter lower upper = .error .bracketing
      ↔ 0 < (bsVal S K T r lower ot - tp) * (bsVal S K T r upper ot - tp)) ∧
    ((∃ v, impliedVolatility tp S K T r ot tol maxIter lower upper = .ok v ∧
        |bsVal S K T r v ot - tp| < tol) ∨
     impliedVolatility tp S K T r ot tol maxIter lower upper = .error .bracketing ∨
     impliedVolatility tp S K T r ot tol maxIter lower upper = .error .convergence) := by
  have hl := ivF_valid_ok tp S K T r lower ot hS hK hT hlow hty
  have hu := ivF_valid_ok tp S K T r upper ot hS hK hT hup hty
  unfold impliedVolatility
  rw [if_neg htp.not_le, hl, hu]
  dsimp only
  by_cases hprod :
      0 < (bsVal S K T r lower ot - tp) * (bsVal S K T r upper ot - tp)
  · rw [if_pos hprod]
    exact ⟨⟨fun _ => hprod, fun _ => rfl⟩, Or.inr (Or.inl rfl)⟩
  · rw [if_neg hprod]
    refine ⟨⟨fun h => absurd h (ivBisect_ne_bracketing tp S K T r _ tol _ _ _ _),
      fun h => absurd h hprod⟩, ?_⟩
    rcases ivBisect_classify tp S K T r ot tol hS hK hT hty maxIter lower upper
        (bsVal S K T r lower ot - tp) hlow hup with h | h
    · exact Or.inl h
    · exact Or.inr (Or.inr h)

/-- C4 counterexample: with the target price equal to `price(lower)` itself,
`f(lower) = 0`, so `f(lower)` and `f(upper)` do not have opposite signs,
yet `implied_volatility` does not raise BracketingError — the code only
raises when the product is strictly positive. -/
theorem C4_counterexample :
    (¬ ((bsVal 100 100 1 0 (1e-6) "call" - bsVal 100 100 1 0 (1e-6) "call" < 0 ∧
         0 < bsVal 100 100 1 0 5 "call" - bsVal 100 100 1 0 (1e-6) "call") ∨
        (bsVal 100 100 1 0 5 "call" - bsVal 100 100 1 0 (1e-6) "call" < 0 ∧
         0 < bsVal 100 100 1 0 (1e-6) "call" - bsVal 100 100 1 0 (1e-6) "call"))) ∧
    impliedVolatility (bsVal 100 100 1 0 (1e-6) "call") 100 100 1 0 "call"
      (1e-6) 100 (1e-6) 5 ≠ .error .bracketing := by
  constructor
  · simp
  · by_cases htp : bsVal 100 100 1 0 (1e-6) "call" ≤ 0
    · unfold impliedVolatility
      rw [if_pos htp]
      simp
    · push_neg at htp
      have hl := ivF_valid_ok (bsVal 100 100 1 0 (1e-6) "call") 100 100 1 0
        ((1e-6:ℝ)) "call"
        (by norm_num) (by norm_num) (by norm_num) (by norm_num) (Or.inl strLower_call)
      have hu := ivF_valid_ok (bsVal 100 100 1 0 (1e-6) "call") 100 100 1 0
        ((5:ℝ)) "call"
        (by norm_num) (by norm_num) (by norm_num) (by norm_num) (Or.inl strLower_call)
      unfold impliedVolatility
      rw [if_neg htp.not_le, hl, hu]
      dsimp only
      rw [if_neg (by simp)]
      exact ivBisect_ne_bracketing _ _ _ _ _ _ _ _ _ _ _

theorem C4_bisection_behaviour_witness :
    ((0:ℝ) < 1 ∧ (0:ℝ) < 100 ∧ (0:ℝ) < 2) ∧
    ((impliedVolatility 1 100 100 1 0 "call" 1 3 1 2 = .error .bracketing
       ↔ 0 < (bsVal 100 100 1 0 1 "call" - 1) * (bsVal 100 100 1 0 2 "call" - 1)) ∧
     ((∃ v, impliedVolatility 1 100 100 1 0 "call" 1 3 1 2 = .ok v ∧
         |bsVal 100 100 1 0 v "call" - 1| < 1) ∨
      impliedVolatility 1 100 100 1 0 "call" 1 3 1 2 = .error .bracketing ∨
      impliedVolatility 1 100 100 1 0 "call" 1 3 1 2 = .error .convergence)) :=
  ⟨⟨by norm_num, by norm_num, by norm_num⟩,
   C4_bisection_behaviour 1 100 100 1 0 1 3 1 2 "call" (by norm_num) (by norm_num)
     (by norm_num) (by norm_num) (by norm_num) (by norm_num) (Or.inl strLower_call)⟩

theorem d1_atm (σ : ℝ) (hσ : σ ≠ 0) : d1 100 100 1 0 σ = σ / 2 := by
  unfold d1
  rw [div_self (by norm_num : (100:ℝ) ≠ 0), Real.log_one, Real.sqrt_one]
  field_simp
  ring

theorem bsCallVal_atm (σ : ℝ) (hσ : σ ≠ 0) :
    bsCallVal 100 100 1 0 σ = 100 * erf (σ / 2 / Real.sqrt 2) := by
  have h1 : d1 100 100 1 0 σ = σ / 2 := d1_atm σ hσ
  have h2 : d2 100 100 1 0 σ = -(σ / 2) := by
    rw [d2, h1, Real.sqrt_one]
    ring
  unfold bsCallVal
  rw [h1, h2]
  unfold normalCdf
  rw [show (-(σ / 2)) / Real.sqrt 2 = -(σ / 2 / Real.sqrt 2) from by ring, erf_neg]
  norm_num
  ring

theorem bsCallVal_atm_lt (σ1 σ2 : ℝ) (h1 : σ1 ≠ 0) (h2 : σ2 ≠ 0) (h : σ1 < σ2) :
    bsCallVal 100 100 1 0 σ1 < bsCallVal 100 100 1 0 σ2 := by
  rw [bsCallVal_atm σ1 h1, bsCallVal_atm σ2 h2]
  have hlt : erf (σ1 / 2 / Real.sqrt 2) < erf (σ2 / 2 / Real.sqrt 2) := by
    apply erf_lt_erf
    gcongr
  linarith

theorem bsCallVal_atm_pos {σ : ℝ} (h : 0 < σ) : 0 < bsCallVal 100 100 1 0 σ := by
  rw [bsCallVal_atm σ h.ne.symm]
  have h0 : erf 0 < erf (σ / 2 / Real.sqrt 2) := erf_lt_erf (by positivity)
  rw [erf_zero] at h0
  linarith

/-- C7 counterexample: for the valid volatility `σ = 6`, which lies outside
the solver's default bracket `[1e-6, 5]`, the round trip raises
BracketingError instead of returning a volatility within `1e-4` of `6`. -/
theorem C7_counterexample :
    impliedVolatility (bsVal 100 100 1 0 6 "call") 100 100 1 0 "call"
      (1e-6) 100 (1e-6) 5 = .error .bracketing := by
  have htgt : bsVal 100 100 1 0 6 "call" = bsCallVal 100 100 1 0 6 :=
    bsVal_call_branch strLower_call 100 100 1 0 6
  have hpos : 0 < bsCallVal 100 100 1 0 6 := bsCallVal_atm_pos (by norm_num)
  have hl := ivF_valid_ok (bsVal 100 100 1 0 6 "call") 100 100 1 0
    ((1e-6:ℝ)) "call"
    (by norm_num) (by norm_num) (by norm_num) (by norm_num) (Or.inl strLower_call)
  have hu := ivF_valid_ok (bsVal 100 100 1 0 6 "call") 100 100 1 0
    ((5:ℝ)) "call"
    (by norm_num) (by norm_num) (by norm_num) (by norm_num) (Or.inl strLower_call)
  have ha : bsVal 100 100 1 0 (1e-6) "call" - bsVal 100 100 1 0 6 "call" < 0 := by
    rw [bsVal_call_branch strLower_call, htgt]
    have := bsCallVal_atm_lt ((1e-6:ℝ)) 6 (by norm_num) (by norm_num)
      (by norm_num)
    linarith
  have hb : bsVal 100 100 1 0 5 "call" - bsVal 100 100 1 0 6 "call" < 0 := by
    rw [bsVal_call_branch strLower_call, htgt]
    have := bsCallVal_atm_lt ((5:ℝ)) 6 (by norm_num) (by norm_num)
      (by norm_num)
    linarith
  unfold impliedVolatility
  rw [if_neg (by rw [htgt]; exact not_le.mpr hpos), hl, hu]
  dsimp only
  rw [if_pos (mul_pos_of_neg_of_neg ha hb)]

/-- C7 (amended): whenever the round trip
`impliedVol(analyticPrice(S,K,T,r,σ,type)), S,K,T,r,type)` returns a
volatility `v` at all, the *price* is recovered within the tolerance:
`|analyticPrice(v) - analyticPrice(σ)| < tol`; recovery of `σ` itself
within `1e-4` is not guaranteed (it fails whenever `σ` lies outside the
default bracket, where BracketingError is raised instead). -/
theorem C7_round_trip_price_recovery (S K T r σ tol : ℝ) (maxIter : ℕ)
    (lower upper : ℝ) (ot : String)
    (hty : strLower ot = "call" ∨ strLower ot = "put") :
    ∀ v, impliedVolatility (bsVal S K T r σ ot) S K T r ot tol maxIter lower upper
        = .ok v →
      |bsVal S K T r v ot - bsVal S K T r σ ot| < tol := by
  intro v hok
  unfold impliedVolatility at hok
  by_cases htp : bsVal S K T r σ ot ≤ 0
  · rw [if_pos htp] at hok
    exact Except.noConfusion hok
  · rw [if_neg htp] at hok
    rcases hfl : ivF (bsVal S K T r σ ot) S K T r (strLower ot) lower
        with e | fl <;> rw [hfl] at hok
    · exact Except.noConfusion hok
    · rcases hfu : ivF (bsVal S K T r σ ot) S K T r (strLower ot) upper
          with e | fu <;> rw [hfu] at hok
      · exact Except.noConfusion hok
      · dsimp only at hok
        split_ifs at hok with hprod
        · have h := ivBisect_ok_tol (bsVal S K T r σ ot) S K T r (strLower ot)
            tol maxIter lower upper fl v hok
          rwa [bsVal_strLower S K T r v hty] at h

/-- Witness for C7: for `σ` equal to the first bisection midpoint
`0.5 * (1e-6 + 5)` the solver returns `σ` itself on the first iteration,
and the recovered price matches exactly. -/
theorem C7_round_trip_price_recovery_witness :
    (strLower "call" = "call" ∨ strLower "call" = "put") ∧
    |bsVal 100 100 1 0 (0.5 * ((1e-6:ℝ) + 5)) "call"
      - bsVal 100 100 1 0 (0.5 * ((1e-6:ℝ) + 5)) "call"| < 1e-6 := by
  have hm : (0:ℝ) < 0.5 * (1e-6 + 5) := by norm_num
  have htgt : bsVal 100 100 1 0 (0.5 * ((1e-6:ℝ) + 5)) "call"
      = bsCallVal 100 100 1 0 (0.5 * ((1e-6:ℝ) + 5)) :=
    bsVal_call_branch strLower_call 100 100 1 0 (0.5 * ((1e-6:ℝ) + 5))
  have hpos : 0 < bsCallVal 100 100 1 0 (0.5 * ((1e-6:ℝ) + 5)) :=
    bsCallVal_atm_pos hm
  have hl := ivF_valid_ok (bsVal 100 100 1 0 (0.5 * ((1e-6:ℝ) + 5)) "call")
    100 100 1 0 ((1e-6:ℝ)) "call"
    (by norm_num) (by norm_num) (by norm_num) (by norm_num) (Or.inl strLower_call)
  have hu := ivF_valid_ok (bsVal 100 100 1 0 (0.5 * ((1e-6:ℝ) + 5)) "call")
    100 100 1 0 ((5:ℝ)) "call"
    (by norm_num) (by norm_num) (by norm_num) (by norm_num) (Or.inl strLower_call)
  have hmid := ivF_valid_ok
    (bsVal 100 100 1 0 (0.5 * ((1e-6:ℝ) + 5)) "call")
    100 100 1 0
    (0.5 * ((1e-6:ℝ) + 5)) "call"
    (by norm_num) (by norm_num) (by norm_num) hm (Or.inl strLower_call)
  have ha : bsVal 100 100 1 0 (1e-6) "call"
      - bsVal 100 100 1 0 (0.5 * ((1e-6:ℝ) + 5)) "call" < 0 := by
    rw [bsVal_call_branch strLower_call, htgt]
    have := bsCallVal_atm_lt ((1e-6:ℝ)) (0.5 * ((1e-6:ℝ) + 5))
      (by norm_num) (by norm_num) (by norm_num)
    linarith
  have hb : 0 < bsVal 100 100 1 0 5 "call"
      - bsVal 100 100 1 0 (0.5 * ((1e-6:ℝ) + 5)) "call" := by
    rw [bsVal_call_branch strLower_call, htgt]
    have := bsCallVal_atm_lt (0.5 * ((1e-6:ℝ) + 5)) ((5:ℝ))
      (by norm_num) (by norm_num) (by norm_num)
    linarith
  have hok : impliedVolatility (bsVal 100 100 1 0 (0.5 * ((1e-6:ℝ) + 5)) "call")
      100 100 1 0 "call" (1e-6) 100 (1e-6) 5 = .ok (0.5 * ((1e-6:ℝ) + 5)) := by
    unfold impliedVolatility
    rw [if_neg (by rw [htgt]; exact not_le.mpr hpos), hl, hu]
    dsimp only
    rw [if_neg (by nlinarith)]
    rw [show (100:ℕ) = 99 + 1 from rfl, ivBisect, hmid]
    dsimp only
    rw [if_pos (by rw [sub_self, abs_zero]; norm_num)]
  exact ⟨Or.inl strLower_call,
    C7_round_trip_price_recovery 100 100 1 0 (0.5 * ((1e-6:ℝ) + 5)) (1e-6) 100
      (1e-6) 5 "call" (Or.inl strLower_call) (0.5 * ((1e-6:ℝ) + 5)) hok⟩

theorem crrLevel_one_cc (u p disc K p0 p1 p2 v0 v1 v2 : ℝ) :
    crrLevel u p disc K true true 1 ([p0, p1, p2], [v0, v1, v2]) =
      ([p0 / u, p1 / u, p2],
       [max (disc * (p * v1 + (1 - p) * v0)) (max (p0 / u - K) 0),
        max (disc * (p * v2 + (1 - p) * v1)) (max (p1 / u - K) 0),
        v2]) := by
  simp [crrLevel, List.range_succ]

theorem crrLevel_zero_cc (u p disc K p0 p1 p2 v0 v1 v2 : ℝ) :
    crrLevel u p disc K true true 0 ([p0, p1, p2], [v0, v1, v2]) =
      ([p0 / u, p1, p2],
       [max (disc * (p * v1 + (1 - p) * v0)) (max (p0 / u - K) 0),
        v1, v2]) := by
  simp [crrLevel, List.range_succ]

theorem crrLevel_one_ce (u p disc K p0 p1 p2 v0 v1 v2 : ℝ) :
    crrLevel u p disc K true false 1 ([p0, p1, p2], [v0, v1, v2]) =
      ([p0 / u, p1 / u, p2],
       [disc * (p * v1 + (1 - p) * v0),
        disc * (p * v2 + (1 - p) * v1),
        v2]) := by
  simp [crrLevel, List.range_succ]

theorem crrLevel_zero_ce (u p disc K p0 p1 p2 v0 v1 v2 : ℝ) :
    crrLevel u p disc K true false 0 ([p0, p1, p2], [v0, v1, v2]) =
      ([p0 / u, p1, p2],
       [disc * (p * v1 + (1 - p) * v0), v1, v2]) := by
  simp [crrLevel, List.range_succ]

theorem crrLoop_two (u p disc K : ℝ) (call amer : Bool) (pv : List ℝ × List ℝ) :
    crrLoop u p disc K call amer 2 pv =
      crrLevel u p disc K call amer 0 (crrLevel u p disc K call amer 1 pv) := rfl

theorem crrDt_cx : crrDt 2 2 = 1 := by
  unfold crrDt
  norm_num

theorem crrU_cx : crrU (1/5) 2 2 = Real.exp (1/5) := by
  unfold crrU
  rw [crrDt_cx, Real.sqrt_one, mul_one]

theorem crrD_cx : crrD (1/5) 2 2 = (Real.exp (1/5))⁻¹ := by
  unfold crrD
  rw [crrU_cx, one_div]

theorem exp_one_eq_pow : Real.exp 1 = Real.exp (1/5) ^ 5 := by
  rw [← Real.exp_nat_mul]
  norm_num

theorem crrP_cx : crrP (-1) (1/5) 2 2 = (-(Real.exp (1/5) ^ 2 + 1)) / Real.exp (1/5) ^ 4 := by
  have hx0 : (0:ℝ) < Real.exp (1/5) := Real.exp_pos _
  have hx1 : 1 < Real.exp (1/5) := by
    rw [Real.one_lt_exp_iff]
    norm_num
  unfold crrP
  rw [crrDt_cx, crrU_cx, crrD_cx]
  rw [show (-1:ℝ) * 1 = -1 from by ring, Real.exp_neg, exp_one_eq_pow]
  have hden : Real.exp (1/5) - (Real.exp (1/5))⁻¹ ≠ 0 := by
    have : (Real.exp (1/5))⁻¹ < 1 := inv_lt_one_of_one_lt₀ hx1
    linarith
  rw [div_eq_div_iff hden (by positivity : (0:ℝ) < Real.exp (1/5) ^ 4).ne.symm]
  field_simp
  ring

theorem crrDisc_cx : crrDisc (-1) 2 2 = Real.exp 1 := by
  unfold crrDisc
  rw [crrDt_cx]
  norm_num

theorem crrTerm_cx : crrTerminalPrices 100 (1/5) 2 2 =
    [100 / Real.exp (1/5) ^ 2, 100, 100 * Real.exp (1/5) ^ 2] := by
  have hx0 : (0:ℝ) < Real.exp (1/5) := Real.exp_pos _
  unfold crrTerminalPrices
  rw [crrU_cx, crrD_cx]
  simp [List.range_succ]
  rw [div_eq_mul_inv]

theorem crrPay_cx : crrPayoffs 100 true
    [100 / Real.exp (1/5) ^ 2, 100, 100 * Real.exp (1/5) ^ 2] =
    [0, 0, 100 * Real.exp (1/5) ^ 2 - 100] := by
  have hx1 : 1 < Real.exp (1/5) := by
    rw [Real.one_lt_exp_iff]
    norm_num
  have hsq : 1 < Real.exp (1/5) ^ 2 := one_lt_pow₀ hx1 (by norm_num)
  simp [crrPayoffs]
  apply div_le_self (by norm_num)
  have hx : 1 < Real.exp (5:ℝ)⁻¹ := by
    rw [Real.one_lt_exp_iff]
    norm_num
  nlinarith

theorem binomial_cx_american_eval :
    binomialTreePrice 100 100 2 (-1) (1/5) "call" 2 "american" = 0 := by
  have hx0 : (0:ℝ) < Real.exp (1/5) := Real.exp_pos _
  have hx1 : 1 < Real.exp (1/5) := by
    rw [Real.one_lt_exp_iff]
    norm_num
  have hdE : (0:ℝ) < Real.exp 1 := Real.exp_pos _
  have hpE : (-(Real.exp (1/5) ^ 2 + 1)) / Real.exp (1/5) ^ 4 ≤ 0 := by
    apply div_nonpos_of_nonpos_of_nonneg
    · nlinarith
    · positivity
  have hA : (0:ℝ) ≤ 100 * Real.exp (1/5) ^ 2 - 100 := by nlinarith
  have hmax1 : max (100 / Real.exp (1/5) ^ 2 / Real.exp (1/5) - 100) 0 = 0 := by
    apply max_eq_right
    have h1 : 100 / Real.exp (1/5) ^ 2 ≤ 100 := by
      apply div_le_self (by norm_num)
      nlinarith
    have h2 : 100 / Real.exp (1/5) ^ 2 / Real.exp (1/5) ≤ 100 / Real.exp (1/5) ^ 2 := by
      apply div_le_self (by positivity)
      linarith
    linarith
  have hmax2 : max (100 / Real.exp (1/5) - 100) 0 = 0 := by
    apply max_eq_right
    have : 100 / Real.exp (1/5) ≤ 100 := by
      apply div_le_self (by norm_num)
      linarith
    linarith
  have hmax3 : max (100 / Real.exp (1/5) ^ 2 / Real.exp (1/5) / Real.exp (1/5) - 100) 0
      = 0 := by
    apply max_eq_right
    have h1 : 100 / Real.exp (1/5) ^ 2 / Real.exp (1/5) ≤ 100 := by
      calc 100 / Real.exp (1/5) ^ 2 / Real.exp (1/5)
          ≤ 100 / Real.exp (1/5) ^ 2 := by
            apply div_le_self (by positivity)
            linarith
        _ ≤ 100 := by
            apply div_le_self (by norm_num)
            nlinarith
    have h2 : 100 / Real.exp (1/5) ^ 2 / Real.exp (1/5) / Real.exp (1/5)
        ≤ 100 / Real.exp (1/5) ^ 2 / Real.exp (1/5) := by
      apply div_le_self (by positivity)
      linarith
    linarith
  have hcont : Real.exp 1 *
      ((-(Real.exp (1/5) ^ 2 + 1)) / Real.exp (1/5) ^ 4 * (100 * Real.exp (1/5) ^ 2 - 100)
        + (1 - (-(Real.exp (1/5) ^ 2 + 1)) / Real.exp (1/5) ^ 4) * 0) ≤ 0 := by
    have h1 : (-(Real.exp (1/5) ^ 2 + 1)) / Real.exp (1/5) ^ 4
        * (100 * Real.exp (1/5) ^ 2 - 100) ≤ 0 := by
      rcases le_or_lt ((-(Real.exp (1/5) ^ 2 + 1)) / Real.exp (1/5) ^ 4
          * (100 * Real.exp (1/5) ^ 2 - 100)) 0 with h | h
      · exact h
      · nlinarith
    nlinarith
  have hL1A : crrLevel (Real.exp (1/5))
      ((-(Real.exp (1/5) ^ 2 + 1)) / Real.exp (1/5) ^ 4) (Real.exp 1) 100 true true 1
      ([100 / Real.exp (1/5) ^ 2, 100, 100 * Real.exp (1/5) ^ 2],
       [0, 0, 100 * Real.exp (1/5) ^ 2 - 100]) =
      ([100 / Real.exp (1/5) ^ 2 / Real.exp (1/5), 100 / Real.exp (1/5),
        100 * Real.exp (1/5) ^ 2],
       [0, 0, 100 * Real.exp (1/5) ^ 2 - 100]) := by
    rw [crrLevel_one_cc]
    refine congrArg₂ Prod.mk rfl ?_
    have e0 : Real.exp 1 *
        ((-(Real.exp (1/5) ^ 2 + 1)) / Real.exp (1/5) ^ 4 * 0
          + (1 - (-(Real.exp (1/5) ^ 2 + 1)) / Real.exp (1/5) ^ 4) * 0) = 0 := by ring
    rw [e0, hmax1, hmax2, max_self]
    rw [max_eq_right hcont]
  have hL0A : crrLevel (Real.exp (1/5))
      ((-(Real.exp (1/5) ^ 2 + 1)) / Real.exp (1/5) ^ 4) (Real.exp 1) 100 true true 0
      ([100 / Real.exp (1/5) ^ 2 / Real.exp (1/5), 100 / Real.exp (1/5),
        100 * Real.exp (1/5) ^ 2],
       [0, 0, 100 * Real.exp (1/5) ^ 2 - 100]) =
      ([100 / Real.exp (1/5) ^ 2 / Real.exp (1/5) / Real.exp (1/5), 100 / Real.exp (1/5),
        100 * Real.exp (1/5) ^ 2],
       [0, 0, 100 * Real.exp (1/5) ^ 2 - 100]) := by
    rw [crrLevel_zero_cc]
    refine congrArg₂ Prod.mk rfl ?_
    have e0 : Real.exp 1 *
        ((-(Real.exp (1/5) ^ 2 + 1)) / Real.exp (1/5) ^ 4 * 0
          + (1 - (-(Real.exp (1/5) ^ 2 + 1)) / Real.exp (1/5) ^ 4) * 0) = 0 := by ring
    rw [e0, hmax3, max_self]
  unfold binomialTreePrice
  simp only [show (strLower "call" == "call") = true from by decide,
    show (strLower "american" == "american") = true from by decide]
  rw [crrU_cx, crrP_cx, crrDisc_cx, crrTerm_cx, crrPay_cx, crrLoop_two, hL1A, hL0A]
  simp [List.getD]

theorem binomial_cx_european_eval :
    binomialTreePrice 100 100 2 (-1) (1/5) "call" 2 "european" =
      100 * Real.exp (1/5) ^ 2 * (Real.exp (1/5) ^ 2 + 1) * (Real.exp (1/5) ^ 4 - 1) := by
  have hx0 : (0:ℝ) < Real.exp (1/5) := Real.exp_pos _
  have hxne : Real.exp (1/5) ≠ 0 := hx0.ne.symm
  have hL1E : crrLevel (Real.exp (1/5))
      ((-(Real.exp (1/5) ^ 2 + 1)) / Real.exp (1/5) ^ 4) (Real.exp 1) 100 true false 1
      ([100 / Real.exp (1/5) ^ 2, 100, 100 * Real.exp (1/5) ^ 2],
       [0, 0, 100 * Real.exp (1/5) ^ 2 - 100]) =
      ([100 / Real.exp (1/5) ^ 2 / Real.exp (1/5), 100 / Real.exp (1/5),
        100 * Real.exp (1/5) ^ 2],
       [0, -(100 * Real.exp (1/5) * (Real.exp (1/5) ^ 4 - 1)),
        100 * Real.exp (1/5) ^ 2 - 100]) := by
    rw [crrLevel_one_ce]
    refine congrArg₂ Prod.mk rfl ?_
    have e0 : Real.exp 1 *
        ((-(Real.exp (1/5) ^ 2 + 1)) / Real.exp (1/5) ^ 4 * 0
          + (1 - (-(Real.exp (1/5) ^ 2 + 1)) / Real.exp (1/5) ^ 4) * 0) = 0 := by ring
    rw [e0]
    have e1 : Real.exp 1 *
        ((-(Real.exp (1/5) ^ 2 + 1)) / Real.exp (1/5) ^ 4
            * (100 * Real.exp (1/5) ^ 2 - 100)
          + (1 - (-(Real.exp (1/5) ^ 2 + 1)) / Real.exp (1/5) ^ 4) * 0) =
        -(100 * Real.exp (1/5) * (Real.exp (1/5) ^ 4 - 1)) := by
      rw [exp_one_eq_pow]
      field_simp
      ring
    rw [e1]
  have hL0E : crrLevel (Real.exp (1/5))
      ((-(Real.exp (1/5) ^ 2 + 1)) / Real.exp (1/5) ^ 4) (Real.exp 1) 100 true false 0
      ([100 / Real.exp (1/5) ^ 2 / Real.exp (1/5), 100 / Real.exp (1/5),
        100 * Real.exp (1/5) ^ 2],
       [0, -(100 * Real.exp (1/5) * (Real.exp (1/5) ^ 4 - 1)),
        100 * Real.exp (1/5) ^ 2 - 100]) =
      ([100 / Real.exp (1/5) ^ 2 / Real.exp (1/5) / Real.exp (1/5), 100 / Real.exp (1/5),
        100 * Real.exp (1/5) ^ 2],
       [100 * Real.exp (1/5) ^ 2 * (Real.exp (1/5) ^ 2 + 1) * (Real.exp (1/5) ^ 4 - 1),
        -(100 * Real.exp (1/5) * (Real.exp (1/5) ^ 4 - 1)),
        100 * Real.exp (1/5) ^ 2 - 100]) := by
    rw [crrLevel_zero_ce]
    refine congrArg₂ Prod.mk rfl ?_
    have e0 : Real.exp 1 *
        ((-(Real.exp (1/5) ^ 2 + 1)) / Real.exp (1/5) ^ 4
            * -(100 * Real.exp (1/5) * (Real.exp (1/5) ^ 4 - 1))
          + (1 - (-(Real.exp (1/5) ^ 2 + 1)) / Real.exp (1/5) ^ 4) * 0) =
        100 * Real.exp (1/5) ^ 2 * (Real.exp (1/5) ^ 2 + 1)
          * (Real.exp (1/5) ^ 4 - 1) := by
      rw [exp_one_eq_pow]
      field_simp
      ring
    rw [e0]
  unfold binomialTreePrice
  simp only [show (strLower "call" == "call") = true from by decide,
    show (strLower "european" == "american") = false from by decide]
  rw [crrU_cx, crrP_cx, crrDisc_cx, crrTerm_cx, crrPay_cx, crrLoop_two, hL1E, hL0E]
  simp [List.getD]

/-- C6 counterexample: at the valid input `S = K = 100`, `T = 2`, `r = -1`,
`σ = 1/5`, `steps = 2`, call exercise, the risk-neutral probability is
negative and the American lattice price (0) is strictly *below* the
European one (`100·e^{2/5}·(e^{2/5}+1)·(e^{4/5}-1) ≈ 455`), refuting
"American ≥ European for any r". -/
theorem C6_counterexample :
    binomialTreePrice 100 100 2 (-1) (1/5) "call" 2 "american" <
      binomialTreePrice 100 100 2 (-1) (1/5) "call" 2 "european" := by
  rw [binomial_cx_american_eval, binomial_cx_european_eval]
  have hx1 : 1 < Real.exp (1/5) := by
    rw [Real.one_lt_exp_iff]
    norm_num
  have h1 : (0:ℝ) < Real.exp (1/5) ^ 2 := by positivity
  have h2 : (0:ℝ) < Real.exp (1/5) ^ 2 + 1 := by positivity
  have h3 : (0:ℝ) < Real.exp (1/5) ^ 4 - 1 := by
    have := one_lt_pow₀ hx1 (n := 4) (by norm_num)
    linarith
  have := mul_pos (mul_pos (mul_pos (by norm_num : (0:ℝ) < 100) h1) h2) h3
  linarith

theorem getD_range_map (L : ℕ) (f : ℕ → ℝ) (j : ℕ) :
    ((List.range L).map f).getD j 0 = if j < L then f j else 0 := by
  rw [List.getD_eq_getElem?_getD, List.getElem?_map]
  rcases lt_or_ge j L with h | h
  · rw [List.getElem?_range h, if_pos h]
    rfl
  · rw [List.getElem?_eq_none, if_neg (not_lt.mpr h)]
    · rfl
    · simpa using h

theorem crrLevel_fst (u p disc K : ℝ) (call amer : Bool) (i : ℕ)
    (prices values : List ℝ) :
    (crrLevel u p disc K call amer i (prices, values)).1 =
      (List.range prices.length).map
        (fun j => if j ≤ i then prices.getD j 0 / u else prices.getD j 0) := rfl

theorem crrLevel_snd (u p disc K : ℝ) (call amer : Bool) (i : ℕ)
    (prices values : List ℝ) :
    (crrLevel u p disc K call amer i (prices, values)).2 =
      (List.range values.length).map (fun j =>
        if j ≤ i then
          let continuation :=
            disc * (p * values.getD (j + 1) 0 + (1 - p) * values.getD j 0)
          if amer then
            let intrinsic :=
              if call then max (prices.getD j 0 / u - K) 0
              else max (K - prices.getD j 0 / u) 0
            max continuation intrinsic
          else continuation
        else values.getD j 0) := rfl

theorem crrLoop_mono (u p disc K : ℝ) (call : Bool)
    (hp0 : 0 ≤ p) (hp1 : p ≤ 1) (hdisc : 0 ≤ disc) :
    ∀ (n : ℕ) (prices vE vA : List ℝ), vE.length = vA.length →
      (∀ j, vE.getD j 0 ≤ vA.getD j 0) →
      ∀ j, ((crrLoop u p disc K call false n (prices, vE)).2).getD j 0 ≤
        ((crrLoop u p disc K call true n (prices, vA)).2).getD j 0 := by
  intro n
  induction n with
  | zero =>
    intro prices vE vA hlen hle j
    exact hle j
  | succ n ih =>
    intro prices vE vA hlen hle j
    rw [crrLoop, crrLoop]
    have hfst : (crrLevel u p disc K call false n (prices, vE)).1 =
        (crrLevel u p disc K call true n (prices, vA)).1 := by
      rw [crrLevel_fst, crrLevel_fst]
    have hpair1 : crrLevel u p disc K call false n (prices, vE) =
        ((crrLevel u p disc K call true n (prices, vA)).1,
         (crrLevel u p disc K call false n (prices, vE)).2) := by
      rw [← hfst]
    rw [hpair1]
    have hpair2 : crrLevel u p disc K call true n (prices, vA) =
        ((crrLevel u p disc K call true n (prices, vA)).1,
         (crrLevel u p disc K call true n (prices, vA)).2) := rfl
    rw [hpair2]
    apply ih
    · rw [crrLevel_snd, crrLevel_snd, List.length_map, List.length_map,
        List.length_range, List.length_range, hlen]
    · intro k
      rw [crrLevel_snd, crrLevel_snd, getD_range_map, getD_range_map, hlen]
      by_cases hk : k < vA.length
      · rw [if_pos hk, if_pos hk]
        dsimp only
        by_cases hki : k ≤ n
        · rw [if_pos hki, if_pos hki]
          have hcont : disc * (p * vE.getD (k + 1) 0 + (1 - p) * vE.getD k 0) ≤
              disc * (p * vA.getD (k + 1) 0 + (1 - p) * vA.getD k 0) := by
            have h1 := hle (k + 1)
            have h2 := hle k
            nlinarith [mul_nonneg (mul_nonneg hdisc hp0) (sub_nonneg.mpr h1),
              mul_nonneg (mul_nonneg hdisc (by linarith : (0:ℝ) ≤ 1 - p))
                (sub_nonneg.mpr h2)]
          cases call <;> simp only [Bool.false_eq_true, if_false, if_true]
          · exact le_trans hcont (le_max_left _ _)
          · exact le_trans hcont (le_max_left _ _)
        · rw [if_neg hki, if_neg hki]
          exact hle k
      · rw [if_neg hk, if_neg hk]

/-- C6 (amended): the American lattice price dominates the European one
whenever the CRR risk-neutral probability `p = (e^{r·dt} - d)/(u - d)` lies
in `[0, 1]` (equivalently `d ≤ e^{r·dt} ≤ u`); for arbitrary `r`, as the
claim states it, the property fails — see the counterexample, where `p < 0`. -/
theorem C6_american_ge_european (S K T r σ : ℝ) (optionType : String) (steps : ℕ)
    (hp0 : 0 ≤ crrP r σ T steps) (hp1 : crrP r σ T steps ≤ 1) :
    binomialTreePrice S K T r σ optionType steps "european" ≤
      binomialTreePrice S K T r σ optionType steps "american" := by
  unfold binomialTreePrice
  simp only [show (strLower "european" == "american") = false from by decide,
    show (strLower "american" == "american") = true from by decide]
  exact crrLoop_mono (crrU σ T steps) (crrP r σ T steps) (crrDisc r T steps) K
    (strLower optionType == "call") hp0 hp1 (le_of_lt (Real.exp_pos _)) steps
    (crrTerminalPrices S σ T steps) _ _ rfl (fun j => le_refl _) 0

/-- Witness for C6 at `S = K = 100`, `T = 1`, `r = 0`, `σ = 1`, `steps = 1`. -/
theorem C6_american_ge_european_witness :
    (0 ≤ crrP 0 1 1 1 ∧ crrP 0 1 1 1 ≤ 1) ∧
    binomialTreePrice 100 100 1 0 1 "call" 1 "european" ≤
      binomialTreePrice 100 100 1 0 1 "call" 1 "american" := by
  have hu : crrU 1 1 1 = Real.exp 1 := by
    unfold crrU crrDt
    norm_num
  have hd : crrD 1 1 1 = (Real.exp 1)⁻¹ := by
    rw [crrD, hu, one_div]
  have he : 1 < Real.exp 1 := by
    rw [Real.one_lt_exp_iff]
    norm_num
  have hinv : (Real.exp 1)⁻¹ < 1 := inv_lt_one_of_one_lt₀ he
  have hinv0 : 0 < (Real.exp 1)⁻¹ := by positivity
  have hP : crrP 0 1 1 1 = (1 - (Real.exp 1)⁻¹) / (Real.exp 1 - (Real.exp 1)⁻¹) := by
    unfold crrP crrDt
    rw [hu, hd]
    norm_num
  have hp0 : 0 ≤ crrP 0 1 1 1 := by
    rw [hP]
    apply div_nonneg <;> linarith
  have hp1 : crrP 0 1 1 1 ≤ 1 := by
    rw [hP]
    rw [div_le_one (by linarith)]
    linarith
  exact ⟨⟨hp0, hp1⟩, C6_american_ge_european 100 100 1 0 1 "call" 1 hp0 hp1⟩

theorem mem_insertUnique {a x : ℝ} : ∀ {l : List ℝ},
    a ∈ insertUnique x l ↔ a = x ∨ a ∈ l := by
  intro l
  induction l with
  | nil => simp [insertUnique]
  | cons y ys ih =>
    rw [insertUnique]
    split_ifs with h1 h2
    · simp
    · subst h2
      simp only [List.mem_cons]
      tauto
    · simp only [List.mem_cons, ih]
      tauto

theorem insertUnique_sorted {x : ℝ} : ∀ {l : List ℝ},
    l.Sorted (· < ·) → (insertUnique x l).Sorted (· < ·) := by
  intro l
  induction l with
  | nil =>
    intro _
    simp [insertUnique]
  | cons y ys ih =>
    intro hs
    rw [List.sorted_cons] at hs
    rw [insertUnique]
    split_ifs with h1 h2
    · rw [List.sorted_cons]
      refine ⟨?_, by rw [List.sorted_cons]; exact hs⟩
      intro b hb
      rcases List.mem_cons.mp hb with rfl | hb
      · exact h1
      · exact lt_trans h1 (hs.1 b hb)
    · rw [List.sorted_cons]
      exact hs
    · rw [List.sorted_cons]
      refine ⟨?_, ih hs.2⟩
      intro b hb
      rcases mem_insertUnique.mp hb with rfl | hb
      · exact lt_of_le_of_ne (not_lt.mp h1) (Ne.symm h2)
      · exact hs.1 b hb

theorem sortedUnique_sorted (xs : List ℝ) : (sortedUnique xs).Sorted (· < ·) := by
  unfold sortedUnique
  induction xs with
  | nil => simp
  | cons y ys ih => exact insertUnique_sorted ih

theorem mem_sortedUnique {a : ℝ} : ∀ {xs : List ℝ},
    a ∈ sortedUnique xs ↔ a ∈ xs := by
  intro xs
  induction xs with
  | nil => simp [sortedUnique]
  | cons y ys ih =>
    unfold sortedUnique at ih ⊢
    rw [List.foldr_cons, mem_insertUnique, ih, List.mem_cons]

theorem countP_lt_sorted : ∀ (xs : List ℝ), xs.Sorted (· < ·) →
    ∀ a, a < xs.length →
      xs.countP (fun y => decide (y < xs.getD a 0)) = a := by
  intro xs
  induction xs with
  | nil =>
    intro _ a ha
    simp at ha
  | cons z zs ih =>
    intro hs a ha
    rw [List.sorted_cons] at hs
    cases a with
    | zero =>
      rw [List.countP_eq_zero]
      intro b hb
      rcases List.mem_cons.mp hb with rfl | hb
      · simp [List.getD]
      · simp only [List.getD_cons_zero, decide_eq_true_eq]
        exact not_lt.mpr (le_of_lt (hs.1 b hb))
    | succ a =>
      have ha2 : a < zs.length := by simpa using ha
      have hmem : zs.getD a 0 ∈ zs := by
        rw [List.getD_eq_getElem _ _ ha2]
        exact List.getElem_mem ha2
      rw [List.getD_cons_succ, List.countP_cons]
      rw [ih hs.2 a ha2]
      simp only [decide_eq_true_eq]
      rw [if_pos (hs.1 _ hmem)]

theorem sorted_getD_lt {xs : List ℝ} (hs : xs.Sorted (· < ·)) {i j : ℕ}
    (hij : i < j) (hj : j < xs.length) : xs.getD i 0 < xs.getD j 0 := by
  rw [List.getD_eq_get _ _ (lt_trans hij hj), List.getD_eq_get _ _ hj]
  exact List.Sorted.get_strictMono hs (by simpa using hij)

theorem interp_pick (xs : List ℝ) (hs : xs.Sorted (· < ·))
    (hlen : 2 ≤ xs.length) (a : ℕ) (ha : a < xs.length) (f : ℕ → ℝ) :
    (1 - interpLam xs (xs.getD a 0)) * f (interpIdx xs (xs.getD a 0))
      + interpLam xs (xs.getD a 0) * f (interpIdx xs (xs.getD a 0) + 1) = f a := by
  have hcount := countP_lt_sorted xs hs a ha
  cases a with
  | zero =>
    have hidx : interpIdx xs (xs.getD 0 0) = 0 := by
      unfold interpIdx
      rw [hcount]
      simp
    have hlam : interpLam xs (xs.getD 0 0) = 0 := by
      unfold interpLam
      rw [hidx, sub_self, zero_div]
    rw [hidx, hlam]
    ring
  | succ a =>
    have hidx : interpIdx xs (xs.getD (a + 1) 0) = a := by
      unfold interpIdx
      rw [hcount]
      simp only [Nat.add_sub_cancel]
      omega
    have hne : xs.getD (a + 1) 0 - xs.getD a 0 ≠ 0 := by
      have := sorted_getD_lt hs (Nat.lt_succ_self a) ha
      linarith
    have hlam : interpLam xs (xs.getD (a + 1) 0) = 1 := by
      unfold interpLam
      rw [hidx, div_self hne]
    rw [hidx, hlam]
    ring

theorem interpIdx_beyond (xs : List ℝ) (hlen : 2 ≤ xs.length) {x : ℝ}
    (hx : ∀ y ∈ xs, y < x) : interpIdx xs x = xs.length - 2 := by
  unfold interpIdx
  rw [List.countP_eq_length.mpr]
  · omega
  · intro b hb
    simpa using hx b hb

theorem sum_div_length_const {l : List ℝ} {v : ℝ} (hne : l ≠ [])
    (hall : ∀ x ∈ l, x = v) : l.sum / l.length = v := by
  have hsum : l.sum = l.length • v := List.sum_eq_card_nsmul l v hall
  rw [hsum, nsmul_eq_mul]
  have hl : (l.length : ℝ) ≠ 0 := by
    have := List.length_pos.mpr hne
    positivity
  field_simp

theorem gridVal_of_mem {rows : List (ℝ × ℝ × ℝ)} {m k v : ℝ}
    (hmem : (m, k, v) ∈ rows)
    (huniq : ∀ row ∈ rows, row.1 = m → row.2.1 = k → row.2.2 = v) :
    gridVal rows m k = some v := by
  unfold gridVal
  dsimp only
  have hfmem : (m, k, v) ∈ rows.filter fun row => decide (row.1 = m ∧ row.2.1 = k) := by
    rw [List.mem_filter]
    exact ⟨hmem, by simp⟩
  have hfne : rows.filter (fun row => decide (row.1 = m ∧ row.2.1 = k)) ≠ [] :=
    List.ne_nil_of_mem hfmem
  rw [if_neg (by simpa using hfne)]
  congr 1
  rw [← List.length_map _ fun row => row.2.2]
  apply sum_div_length_const
  · simpa using hfne
  · intro x hx
    rcases List.mem_map.mp hx with ⟨row, hrow, rfl⟩
    rw [List.mem_filter] at hrow
    have hcond := of_decide_eq_true hrow.2
    exact huniq row hrow.1 hcond.1 hcond.2

theorem axis_getD_mem (xs : List ℝ) (hlen : 2 ≤ xs.length) (x : ℝ) :
    xs.getD (interpIdx xs x) 0 ∈ xs ∧ xs.getD (interpIdx xs x + 1) 0 ∈ xs := by
  have hi : interpIdx xs x ≤ xs.length - 2 := by
    unfold interpIdx
    exact min_le_right _ _
  have h1 : interpIdx xs x < xs.length := by omega
  have h2 : interpIdx xs x + 1 < xs.length := by omega
  constructor
  · rw [List.getD_eq_getElem _ _ h1]
    exact List.getElem_mem h1
  · rw [List.getD_eq_getElem _ _ h2]
    exact List.getElem_mem h2

theorem interp2_eq_some (ms ks : List ℝ) (g : ℝ → ℝ → Option ℝ) (t k : ℝ)
    (h00 : ∃ w, g (ms.getD (interpIdx ms t) 0) (ks.getD (interpIdx ks k) 0) = some w)
    (h01 : ∃ w, g (ms.getD (interpIdx ms t) 0)
      (ks.getD (interpIdx ks k + 1) 0) = some w)
    (h10 : ∃ w, g (ms.getD (interpIdx ms t + 1) 0)
      (ks.getD (interpIdx ks k) 0) = some w)
    (h11 : ∃ w, g (ms.getD (interpIdx ms t + 1) 0)
      (ks.getD (interpIdx ks k + 1) 0) = some w) :
    interp2 ms ks g t k = some (
      (1 - interpLam ms t) * ((1 - interpLam ks k) *
          (g (ms.getD (interpIdx ms t) 0) (ks.getD (interpIdx ks k) 0)).getD 0
        + interpLam ks k *
          (g (ms.getD (interpIdx ms t) 0) (ks.getD (interpIdx ks k + 1) 0)).getD 0)
      + interpLam ms t * ((1 - interpLam ks k) *
          (g (ms.getD (interpIdx ms t + 1) 0) (ks.getD (interpIdx ks k) 0)).getD 0
        + interpLam ks k *
          (g (ms.getD (interpIdx ms t + 1) 0)
            (ks.getD (interpIdx ks k + 1) 0)).getD 0)) := by
  obtain ⟨w00, h00⟩ := h00
  obtain ⟨w01, h01⟩ := h01
  obtain ⟨w10, h10⟩ := h10
  obtain ⟨w11, h11⟩ := h11
  unfold interp2
  dsimp only
  rw [h00, h01, h10, h11]
  rfl

theorem shock_filter (rows : List (ℝ × ℝ × ℝ)) (bump t k : ℝ) :
    (shockParallel rows bump).filter (fun row => decide (row.1 = t ∧ row.2.1 = k)) =
      (rows.filter (fun row => decide (row.1 = t ∧ row.2.1 = k))).map
        (fun row => (row.1, row.2.1, row.2.2 + bump)) := by
  unfold shockParallel
  rw [List.filter_map]
  rfl

theorem gridVal_shock_some {rows : List (ℝ × ℝ × ℝ)} {t k : ℝ} (bump : ℝ)
    (h : ∃ w, gridVal rows t k = some w) :
    ∃ w2, gridVal (shockParallel rows bump) t k = some w2 := by
  obtain ⟨w, hw⟩ := h
  unfold gridVal at hw ⊢
  dsimp only at hw ⊢
  by_cases hc : (rows.filter fun row => decide (row.1 = t ∧ row.2.1 = k)).isEmpty
  · rw [if_pos hc] at hw
    exact absurd hw (by simp)
  · rw [shock_filter, if_neg (by simpa using hc)]
    exact ⟨_, rfl⟩

theorem volSurfaceIv_node {rows : List (ℝ × ℝ × ℝ)} {m k v : ℝ}
    (hmem : (m, k, v) ∈ rows)
    (huniq : ∀ row ∈ rows, row.1 = m → row.2.1 = k → row.2.2 = v)
    (hm2 : 2 ≤ (matAxis rows).length) (hk2 : 2 ≤ (strikeAxis rows).length)
    (hfull : ∀ t ∈ matAxis rows, ∀ s ∈ strikeAxis rows,
      ∃ w, gridVal rows t s = some w) :
    volSurfaceIv rows k m = some v := by
  have hma : m ∈ matAxis rows :=
    mem_sortedUnique.mpr (List.mem_map.mpr ⟨(m, k, v), hmem, rfl⟩)
  have hka : k ∈ strikeAxis rows :=
    mem_sortedUnique.mpr (List.mem_map.mpr ⟨(m, k, v), hmem, rfl⟩)
  obtain ⟨⟨a, ha⟩, hga⟩ := List.mem_iff_get.mp hma
  obtain ⟨⟨b, hb⟩, hgb⟩ := List.mem_iff_get.mp hka
  have hga2 : (matAxis rows).getD a 0 = m := by
    rw [List.getD_eq_get _ _ ha, hga]
  have hgb2 : (strikeAxis rows).getD b 0 = k := by
    rw [List.getD_eq_get _ _ hb, hgb]
  obtain ⟨hmi, hmi1⟩ := axis_getD_mem (matAxis rows) hm2 m
  obtain ⟨hkj, hkj1⟩ := axis_getD_mem (strikeAxis rows) hk2 k
  unfold volSurfaceIv
  rw [← hga2] at hmi hmi1
  rw [← hgb2] at hkj hkj1
  rw [← hga2, ← hgb2]
  rw [interp2_eq_some (matAxis rows) (strikeAxis rows) (gridVal rows)
    ((matAxis rows).getD a 0) ((strikeAxis rows).getD b 0)
    (hfull _ hmi _ hkj) (hfull _ hmi _ hkj1) (hfull _ hmi1 _ hkj)
    (hfull _ hmi1 _ hkj1)]
  refine congrArg some ?_
  have hpick1 := interp_pick (matAxis rows) (sortedUnique_sorted _) hm2 a ha
    (fun i0 =>
      (1 - interpLam (strikeAxis rows) ((strikeAxis rows).getD b 0)) *
        (gridVal rows ((matAxis rows).getD i0 0)
          ((strikeAxis rows).getD
            (interpIdx (strikeAxis rows) ((strikeAxis rows).getD b 0)) 0)).getD 0
      + interpLam (strikeAxis rows) ((strikeAxis rows).getD b 0) *
        (gridVal rows ((matAxis rows).getD i0 0)
          ((strikeAxis rows).getD
            (interpIdx (strikeAxis rows) ((strikeAxis rows).getD b 0) + 1) 0)).getD 0)
  simp only at hpick1
  rw [hpick1]
  have hpick2 := interp_pick (strikeAxis rows) (sortedUnique_sorted _) hk2 b hb
    (fun j0 => (gridVal rows ((matAxis rows).getD a 0)
      ((strikeAxis rows).getD j0 0)).getD 0)
  simp only at hpick2
  rw [hpick2, hga2, hgb2, gridVal_of_mem hmem huniq]
  rfl

/-- C8 (amended): surface node exactness and shock additivity hold on
gap-free constructible surfaces.  For a query (K, T) exactly matching an
input row of a surface whose axes each have at least two points (as
`RegularGridInterpolator` requires), whose rows pinning the queried node
agree (since `pivot_table` aggregates duplicates), and in which every
(maturity, strike) combination is present, `iv(K, T)` returns that row's
iv exactly and `shock_parallel(bump)` adds exactly `bump` at the node.
On a gapped surface the NaN cell propagates instead — see the
counterexample. -/
theorem C8_node_exactness_and_shock (rows : List (ℝ × ℝ × ℝ)) (m k v bump : ℝ)
    (hmem : (m, k, v) ∈ rows)
    (huniq : ∀ row ∈ rows, row.1 = m → row.2.1 = k → row.2.2 = v)
    (hm2 : 2 ≤ (matAxis rows).length) (hk2 : 2 ≤ (strikeAxis rows).length)
    (hfull : ∀ t ∈ matAxis rows, ∀ s ∈ strikeAxis rows,
      ∃ w, gridVal rows t s = some w) :
    volSurfaceIv rows k m = some v ∧
    volSurfaceIv (shockParallel rows bump) k m = some (v + bump) := by
  have h1 := volSurfaceIv_node hmem huniq hm2 hk2 hfull
  have hmat : matAxis (shockParallel rows bump) = matAxis rows := by
    unfold matAxis shockParallel
    rw [List.map_map]
    rfl
  have hstr : strikeAxis (shockParallel rows bump) = strikeAxis rows := by
    unfold strikeAxis shockParallel
    rw [List.map_map]
    rfl
  have hmem2 : (m, k, v + bump) ∈ shockParallel rows bump :=
    List.mem_map.mpr ⟨(m, k, v), hmem, rfl⟩
  have huniq2 : ∀ row ∈ shockParallel rows bump,
      row.1 = m → row.2.1 = k → row.2.2 = v + bump := by
    intro row hrow hr1 hr2
    rcases List.mem_map.mp hrow with ⟨row0, hrow0, rfl⟩
    simp only at hr1 hr2 ⊢
    rw [huniq row0 hrow0 hr1 hr2]
  have hfull2 : ∀ t ∈ matAxis (shockParallel rows bump),
      ∀ s ∈ strikeAxis (shockParallel rows bump),
      ∃ w, gridVal (shockParallel rows bump) t s = some w := by
    intro t ht s hs
    rw [hmat] at ht
    rw [hstr] at hs
    exact gridVal_shock_some bump (hfull t ht s hs)
  have h2 := volSurfaceIv_node hmem2 huniq2 (by rw [hmat]; exact hm2)
    (by rw [hstr]; exact hk2) hfull2
  exact ⟨h1, h2⟩

/-- C9: `shock_parallel` does not mutate the receiver: the result lives at
a fresh handle, the original row table is unchanged after the call, and
therefore every subsequent `iv(K, T)` query on the original surface
returns exactly what it returned before. -/
theorem C9_shock_parallel_no_mutation (s : SurfaceStore) (target : ℕ)
    (bump : ℝ) (hvalid : target < s.next) :
    (shockParallelOp s target bump).2 ≠ target ∧
    (shockParallelOp s target bump).1.tables target = s.tables target ∧
    (shockParallelOp s target bump).1.tables (shockParallelOp s target bump).2
      = shockParallel (s.tables target) bump ∧
    (∀ K T, volSurfaceIv ((shockParallelOp s target bump).1.tables target) K T
      = volSurfaceIv (s.tables target) K T) := by
  have hne : target ≠ s.next := Nat.ne_of_lt hvalid
  refine ⟨fun h => hne h.symm, ?_, ?_, ?_⟩
  · unfold shockParallelOp
    dsimp only
    rw [if_neg hne]
  · unfold shockParallelOp
    dsimp only
    rw [if_pos rfl]
  · intro K T
    unfold shockParallelOp
    dsimp only
    rw [if_neg hne]

/-- Witness for C9 at a concrete one-surface store. -/
theorem C9_shock_parallel_no_mutation_witness :
    (0 < 1) ∧
    ((shockParallelOp ⟨fun _ => [(1, 100, 1/5)], 1⟩ 0 (1/100)).2 ≠ 0 ∧
     (shockParallelOp ⟨fun _ => [(1, 100, 1/5)], 1⟩ 0 (1/100)).1.tables 0
       = (fun _ => [((1:ℝ), (100:ℝ), (1/5:ℝ))]) 0 ∧
     (shockParallelOp ⟨fun _ => [(1, 100, 1/5)], 1⟩ 0 (1/100)).1.tables
         (shockParallelOp ⟨fun _ => [(1, 100, 1/5)], 1⟩ 0 (1/100)).2
       = shockParallel ((fun _ => [((1:ℝ), (100:ℝ), (1/5:ℝ))]) 0) (1/100) ∧
     (∀ K T, volSurfaceIv
         ((shockParallelOp ⟨fun _ => [(1, 100, 1/5)], 1⟩ 0 (1/100)).1.tables 0) K T
       = volSurfaceIv ((fun _ => [((1:ℝ), (100:ℝ), (1/5:ℝ))]) 0) K T)) :=
  ⟨Nat.zero_lt_one,
   C9_shock_parallel_no_mutation ⟨fun _ => [(1, 100, 1/5)], 1⟩ 0 (1/100)
     Nat.zero_lt_one⟩

theorem exRows_matAxis : matAxis exRows = [1, 2] := by
  unfold matAxis exRows sortedUnique
  norm_num [insertUnique]

theorem exRows_strikeAxis : strikeAxis exRows = [100, 110] := by
  unfold strikeAxis exRows sortedUnique
  norm_num [insertUnique]

theorem exRows_grid_11 : gridVal exRows 1 100 = some (1/5) := by
  unfold gridVal exRows
  dsimp only
  rw [List.filter_cons, List.filter_cons, List.filter_cons, List.filter_cons]
  norm_num

theorem exRows_grid_12 : gridVal exRows 1 110 = some (3/10) := by
  unfold gridVal exRows
  dsimp only
  rw [List.filter_cons, List.filter_cons, List.filter_cons, List.filter_cons]
  norm_num

theorem exRows_grid_21 : gridVal exRows 2 100 = some (1/5) := by
  unfold gridVal exRows
  dsimp only
  rw [List.filter_cons, List.filter_cons, List.filter_cons, List.filter_cons]
  norm_num

theorem exRows_grid_22 : gridVal exRows 2 110 = some (3/10) := by
  unfold gridVal exRows
  dsimp only
  rw [List.filter_cons, List.filter_cons, List.filter_cons, List.filter_cons]
  norm_num

theorem exRows_idxT : interpIdx [1, 2] (1:ℝ) = 0 := by
  unfold interpIdx
  rw [List.countP_cons, List.countP_cons, List.countP_nil]
  norm_num

theorem exRows_lamT : interpLam [1, 2] (1:ℝ) = 0 := by
  unfold interpLam
  rw [exRows_idxT]
  norm_num [List.getD]

theorem exRows_idxK : interpIdx [100, 110] (120:ℝ) = 0 := by
  unfold interpIdx
  rw [List.countP_cons, List.countP_cons, List.countP_nil]
  norm_num

theorem exRows_lamK : interpLam [100, 110] (120:ℝ) = 2 := by
  unfold interpLam
  rw [exRows_idxK]
  norm_num [List.getD]

theorem exRows_iv_extrapolated : volSurfaceIv exRows 120 1 = some (2/5) := by
  unfold volSurfaceIv interp2
  rw [exRows_matAxis, exRows_strikeAxis]
  dsimp only
  rw [exRows_idxT, exRows_lamT, exRows_idxK, exRows_lamK]
  simp only [List.getD]
  norm_num
  rw [exRows_grid_11, exRows_grid_12, exRows_grid_21, exRows_grid_22]
  norm_num

/-- C2 counterexample: on the gap-free 2×2 surface `exRows` the query
(K=120, T=1) lies outside the strike hull; `iv` returns 0.4, the linear
extension through the two boundary nodes, while the nearest boundary grid
value (the (T=1, K=110) node) is 0.3.  Out-of-hull queries are therefore
not nearest-neighbor extrapolation. -/
theorem C2_counterexample :
    volSurfaceIv exRows 120 1 = some (2/5) ∧
    gridVal exRows 1 110 = some (3/10) ∧ (2/5 : ℝ) ≠ 3/10 :=
  ⟨exRows_iv_extrapolated, exRows_grid_12, by norm_num⟩

/-- C2 (amended): outside the convex hull (here: strike beyond the last
axis point, maturity on the grid) and on a gap-free surface, `iv` does not
fail and extrapolates *linearly* from the two nearest boundary nodes — the
value lies on the line through the last two grid columns, not at the
nearest boundary value.  (On a gapped surface a NaN cell can poison the
result instead.) -/
theorem C2_linear_extrapolation (rows : List (ℝ × ℝ × ℝ)) (K T : ℝ)
    (hm2 : 2 ≤ (matAxis rows).length) (hk2 : 2 ≤ (strikeAxis rows).length)
    (hT : T ∈ matAxis rows)
    (hK : ∀ y ∈ strikeAxis rows, y < K)
    (hfull : ∀ t ∈ matAxis rows, ∀ s ∈ strikeAxis rows,
      ∃ w, gridVal rows t s = some w) :
    ∃ g1 g2,
      gridVal rows T ((strikeAxis rows).getD ((strikeAxis rows).length - 2) 0)
        = some g1 ∧
      gridVal rows T ((strikeAxis rows).getD ((strikeAxis rows).length - 1) 0)
        = some g2 ∧
      volSurfaceIv rows K T = some (g1 +
        (K - (strikeAxis rows).getD ((strikeAxis rows).length - 2) 0) /
          ((strikeAxis rows).getD ((strikeAxis rows).length - 1) 0
            - (strikeAxis rows).getD ((strikeAxis rows).length - 2) 0) *
          (g2 - g1)) := by
  obtain ⟨⟨a, ha⟩, hga⟩ := List.mem_iff_get.mp hT
  have hga2 : (matAxis rows).getD a 0 = T := by
    rw [List.getD_eq_get _ _ ha, hga]
  have hidxK : interpIdx (strikeAxis rows) K = (strikeAxis rows).length - 2 :=
    interpIdx_beyond _ hk2 hK
  have hplus : (strikeAxis rows).length - 2 + 1 = (strikeAxis rows).length - 1 := by
    omega
  have hlamK : interpLam (strikeAxis rows) K =
      (K - (strikeAxis rows).getD ((strikeAxis rows).length - 2) 0) /
        ((strikeAxis rows).getD ((strikeAxis rows).length - 1) 0
          - (strikeAxis rows).getD ((strikeAxis rows).length - 2) 0) := by
    unfold interpLam
    rw [hidxK, hplus]
  have hks2 : (strikeAxis rows).getD ((strikeAxis rows).length - 2) 0
      ∈ strikeAxis rows := by
    rw [List.getD_eq_getElem _ _ (by omega)]
    exact List.getElem_mem (by omega)
  have hks1 : (strikeAxis rows).getD ((strikeAxis rows).length - 1) 0
      ∈ strikeAxis rows := by
    rw [List.getD_eq_getElem _ _ (by omega)]
    exact List.getElem_mem (by omega)
  obtain ⟨g1, hg1⟩ := hfull T hT _ hks2
  obtain ⟨g2, hg2⟩ := hfull T hT _ hks1
  refine ⟨g1, g2, hg1, hg2, ?_⟩
  obtain ⟨hmi, hmi1⟩ := axis_getD_mem (matAxis rows) hm2 ((matAxis rows).getD a 0)
  obtain ⟨hkj, hkj1⟩ := axis_getD_mem (strikeAxis rows) hk2 K
  unfold volSurfaceIv
  rw [← hga2]
  rw [interp2_eq_some (matAxis rows) (strikeAxis rows) (gridVal rows)
    ((matAxis rows).getD a 0) K
    (hfull _ hmi _ hkj) (hfull _ hmi _ hkj1) (hfull _ hmi1 _ hkj)
    (hfull _ hmi1 _ hkj1)]
  refine congrArg some ?_
  have hpick := interp_pick (matAxis rows) (sortedUnique_sorted _) hm2 a ha
    (fun i0 => (1 - interpLam (strikeAxis rows) K) *
        (gridVal rows ((matAxis rows).getD i0 0)
          ((strikeAxis rows).getD (interpIdx (strikeAxis rows) K) 0)).getD 0
      + interpLam (strikeAxis rows) K *
        (gridVal rows ((matAxis rows).getD i0 0)
          ((strikeAxis rows).getD (interpIdx (strikeAxis rows) K + 1) 0)).getD 0)
  simp only at hpick
  rw [hpick, hga2, hidxK, hplus, hlamK, hg1, hg2]
  simp only [Option.getD_some]
  ring

theorem exRows_full : ∀ t ∈ matAxis exRows, ∀ s ∈ strikeAxis exRows,
    ∃ w, gridVal exRows t s = some w := by
  rw [exRows_matAxis, exRows_strikeAxis]
  intro t ht s hs
  rcases List.mem_cons.mp ht with rfl | ht
  · rcases List.mem_cons.mp hs with rfl | hs
    · exact ⟨_, exRows_grid_11⟩
    · rcases List.mem_cons.mp hs with rfl | hs
      · exact ⟨_, exRows_grid_12⟩
      · simp at hs
  · rcases List.mem_cons.mp ht with rfl | ht
    · rcases List.mem_cons.mp hs with rfl | hs
      · exact ⟨_, exRows_grid_21⟩
      · rcases List.mem_cons.mp hs with rfl | hs
        · exact ⟨_, exRows_grid_22⟩
        · simp at hs
    · simp at ht

/-- Witness for C2 on the concrete surface `exRows` at (K=120, T=1). -/
theorem C2_linear_extrapolation_witness :
    ((1:ℝ) ∈ matAxis exRows ∧ (∀ y ∈ strikeAxis exRows, y < (120:ℝ))) ∧
    (∃ g1 g2,
      gridVal exRows 1
          ((strikeAxis exRows).getD ((strikeAxis exRows).length - 2) 0)
        = some g1 ∧
      gridVal exRows 1
          ((strikeAxis exRows).getD ((strikeAxis exRows).length - 1) 0)
        = some g2 ∧
      volSurfaceIv exRows 120 1 = some (g1 +
        (120 - (strikeAxis exRows).getD ((strikeAxis exRows).length - 2) 0) /
          ((strikeAxis exRows).getD ((strikeAxis exRows).length - 1) 0
            - (strikeAxis exRows).getD ((strikeAxis exRows).length - 2) 0) *
          (g2 - g1))) := by
  have hT : (1:ℝ) ∈ matAxis exRows := by
    rw [exRows_matAxis]
    exact List.mem_cons_self 1 [2]
  have hK : ∀ y ∈ strikeAxis exRows, y < (120:ℝ) := by
    rw [exRows_strikeAxis]
    intro y hy
    rcases List.mem_cons.mp hy with rfl | hy2
    · norm_num
    · rcases List.mem_cons.mp hy2 with rfl | hy3
      · norm_num
      · simp at hy3
  exact ⟨⟨hT, hK⟩, C2_linear_extrapolation exRows 120 1
    (by rw [exRows_matAxis]; simp) (by rw [exRows_strikeAxis]; simp) hT hK
    exRows_full⟩

/-- Witness for C8 on the concrete surface `exRows` at the node
(T=1, K=100) with bump 1/50. -/
theorem C8_node_exactness_and_shock_witness :
    ((1:ℝ), (100:ℝ), (1/5:ℝ)) ∈ exRows ∧
    (volSurfaceIv exRows 100 1 = some (1/5) ∧
     volSurfaceIv (shockParallel exRows (1/50)) 100 1
       = some (1/5 + 1/50)) := by
  have hmem : ((1:ℝ), (100:ℝ), (1/5:ℝ)) ∈ exRows := by
    unfold exRows
    simp
  have huniq : ∀ row ∈ exRows, row.1 = 1 → row.2.1 = 100 → row.2.2 = 1/5 := by
    intro row hrow h1 h2
    unfold exRows at hrow
    rcases List.mem_cons.mp hrow with rfl | hrow
    · norm_num
    · rcases List.mem_cons.mp hrow with rfl | hrow
      · norm_num at h2
      · rcases List.mem_cons.mp hrow with rfl | hrow
        · norm_num at h1
        · rcases List.mem_cons.mp hrow with rfl | hrow
          · norm_num at h1
          · simp at hrow
  exact ⟨hmem, C8_node_exactness_and_shock exRows 1 100 (1/5) (1/50) hmem huniq
    (by rw [exRows_matAxis]; simp) (by rw [exRows_strikeAxis]; simp)
    exRows_full⟩

theorem gapRows_matAxis : matAxis gapRows = [1, 2] := by
  unfold matAxis gapRows sortedUnique
  norm_num [insertUnique]

theorem gapRows_strikeAxis : strikeAxis gapRows = [100, 110] := by
  unfold strikeAxis gapRows sortedUnique
  norm_num [insertUnique]

theorem gapRows_grid_11 : gridVal gapRows 1 100 = some (1/5) := by
  unfold gridVal gapRows
  dsimp only
  rw [List.filter_cons, List.filter_cons, List.filter_cons]
  norm_num

theorem gapRows_grid_12 : gridVal gapRows 1 110 = some (3/10) := by
  unfold gridVal gapRows
  dsimp only
  rw [List.filter_cons, List.filter_cons, List.filter_cons]
  norm_num

theorem gapRows_grid_21 : gridVal gapRows 2 100 = some (1/5) := by
  unfold gridVal gapRows
  dsimp only
  rw [List.filter_cons, List.filter_cons, List.filter_cons]
  norm_num

theorem gapRows_grid_22 : gridVal gapRows 2 110 = none := by
  unfold gridVal gapRows
  dsimp only
  rw [List.filter_cons, List.filter_cons, List.filter_cons]
  norm_num

theorem gap_idxK : interpIdx [100, 110] (110:ℝ) = 0 := by
  unfold interpIdx
  rw [List.countP_cons, List.countP_cons, List.countP_nil]
  norm_num

/-- C8 counterexample: on the gapped surface `gapRows` (no row at
maturity 2, strike 110) the query (K=110, T=1) matches an input row with
iv 0.3, yet the pivoted grid's missing (2, 110) cell is NaN and scipy's
multilinear sum multiplies every corner of the cell — so `iv` returns NaN
(modelled as `none`), not the row's value. -/
theorem C8_counterexample :
    ((1:ℝ), (110:ℝ), (3/10:ℝ)) ∈ gapRows ∧
    volSurfaceIv gapRows 110 1 = none := by
  constructor
  · unfold gapRows
    simp
  · unfold volSurfaceIv interp2
    rw [gapRows_matAxis, gapRows_strikeAxis]
    dsimp only
    rw [exRows_idxT, gap_idxK]
    simp only [List.getD]
    norm_num
    rw [gapRows_grid_11, gapRows_grid_12, gapRows_grid_21, gapRows_grid_22]

end OptionsPricer

